import Mathlib

/-!
# pgcopydb-stream-copy: the transaction replay loop

A shallow embedding of `main.go` / `parse.go`: the decoded input records
(`Stmt`, `Message`, `Column`), the local variables of `main` that buffer the
rows of the open transaction, one iteration of the `for scanner.Scan()` loop
(`step`) and the whole loop (`run`), together with the properties of that loop.

Conventions.
* A `float64` obtained from JSON is finite; it is represented by the rational
  number it denotes.
* Go strings decoded by `encoding/json` are valid UTF-8 and are represented by
  `String`.
* A Go `panic` (failed type assertion, `Scan` error, `Exec` error) ends the
  process; it is an `Except.error` carrying the machine as it was at the panic.
* The libraries `pgtype`, `pgx` and the database are not part of the program;
  they are the fields of `Deps`.
* `json.Unmarshal` is followed on the JSON text after syntax analysis (`Json`):
  the members of an object are decoded in order into the struct fields their
  keys select, by the tags of `parse.go`.
-/

namespace StreamCopy

/-! ## Decoded input (`parse.go`) -/

/-- The dynamic value held by `Column.Value` (`interface{}` filled by
`encoding/json`): `nil`, `bool`, `float64`, `string`, `[]interface{}` or
`map[string]interface{}`. -/
inductive JValue where
  | null
  | bool (b : Bool)
  | number (x : ℚ)
  | string (s : String)
  | array (xs : List JValue)
  | object (kvs : List (String × JValue))

/-- Go struct `Column` (`Type_` is the field `Type`, a reserved word here). -/
structure Column where
  Name : String
  Type_ : String
  Value : JValue

/-- Go struct `Message`. -/
structure Message where
  Action : String
  Xid : Int
  Schema : String
  Table : String
  Columns : List Column

/-- Go struct `Stmt`: one decoded input line. -/
structure Stmt where
  Action : String
  Xid : String
  Lsn : String
  Timestamp : String
  Message : Message

/-! ## Values handed to the database -/

/-- The values appended to `row` in `case "I"`. `τ` is the type of the values
produced by the `pgtype` scanners. -/
inductive TypedValue (τ : Type) where
  | int32 (n : Int)
  | float64 (x : ℚ)
  | bool (b : Bool)
  | timestamptz (t : τ)
  | jsonb (t : τ)
  | varchar (t : τ)
  | date (t : τ)
  | text (t : τ)
  | inet (t : τ)
  | genericText (t : τ)
  deriving DecidableEq

/-- One call `pool.Exec(ctx, query, val...)`. -/
structure Write (τ : Type) where
  query : String
  args : List (TypedValue τ)
  deriving DecidableEq

/-- What the program uses from outside: the `pgtype` scanners (applied to a Go
`string`; `none` is a returned error), `pgx.Identifier{schema, table}.Sanitize()`,
the outcome of `pool.Exec` (given the calls made before it; `true` is a nil
error), and the result of `int32(v)` for a `v` outside the `int32` range, which
Go leaves to the implementation. -/
structure Deps (τ : Type) where
  scanTimestamptz : String → Option τ
  scanJSONB : String → Option τ
  scanVarchar : String → Option τ
  scanDate : String → Option τ
  scanText : String → Option τ
  scanInet : String → Option τ
  scanGenericText : String → Option τ
  sanitize : String → String → String
  exec : List (Write τ) → Write τ → Bool
  int32OutOfRange : ℚ → Int

/-- The three ways the loop body panics. -/
inductive Panic where
  | typeAssertion
  | scanError
  | execError
  deriving DecidableEq

/-! ## Machine state -/

/-- The local variables of `main` that the loop reads and writes. `column_name`
is the Go map, kept as an association list (newest binding first). -/
structure Vars (τ : Type) where
  txnCount : Nat
  table_name : String
  schema_name : String
  column_values : List (List (TypedValue τ))
  row : List (TypedValue τ)
  txn_row_column : String
  column_name : List (String × List String)

/-- The variables together with the calls made to `pool.Exec` so far, oldest
first. -/
structure Machine (τ : Type) where
  vars : Vars τ
  sent : List (Write τ)

/-- The variables as initialised before the loop (lines 44-50). -/
def Vars.init {τ : Type} : Vars τ :=
  { txnCount := 0, table_name := "", schema_name := "", column_values := [],
    row := [], txn_row_column := "", column_name := [] }

/-- The machine at the start of the stream. -/
def Machine.init {τ : Type} : Machine τ := { vars := Vars.init, sent := [] }

/-- The closure `refresh` (lines 51-58): everything but `txnCount` is cleared. -/
def refresh {τ : Type} (v : Vars τ) : Vars τ :=
  { v with table_name := "", schema_name := "", column_values := [], row := [],
           txn_row_column := "", column_name := [] }

/-! ## `case "I"`: coercion of one row -/

/-- Reduce an integer to the `int32` range (two's complement). -/
def wrapInt32 (z : Int) : Int := (z + 2147483648) % 4294967296 - 2147483648

/-- The conversion `int32(v)` of a `float64`: the fraction is discarded
(truncation toward zero); outside the `int32` range the result is the
implementation's. -/
def toInt32 {τ : Type} (D : Deps τ) (x : ℚ) : Int :=
  let t := x.num.tdiv (x.den : Int)
  if -2147483648 ≤ t ∧ t ≤ 2147483647 then t else wrapInt32 (D.int32OutOfRange x)

/-- Type assertion `c.Value.(float64)`. -/
def assertFloat64 : JValue → Except Panic ℚ
  | .number x => .ok x
  | _ => .error .typeAssertion

/-- Type assertion `c.Value.(bool)`. -/
def assertBool : JValue → Except Panic Bool
  | .bool b => .ok b
  | _ => .error .typeAssertion

/-- Type assertion `c.Value.(string)`. -/
def assertString : JValue → Except Panic String
  | .string s => .ok s
  | _ => .error .typeAssertion

/-- The pattern `v := c.Value.(string); var t T; if err := t.Scan(v); err != nil
{ panic(err) }; row = append(row, t)`. -/
def scanWith {τ : Type} (scan : String → Option τ) (wrap : τ → TypedValue τ)
    (v : JValue) : Except Panic (Option (TypedValue τ)) :=
  match assertString v with
  | .error p => .error p
  | .ok s =>
    match scan s with
    | none => .error .scanError
    | some t => .ok (some (wrap t))

/-- The `switch` on `c.Type_` (lines 78-137). `ok (some v)`: `v` is appended to
`row`; `ok none`: no case matched and nothing is appended; `error`: panic. -/
def coerce {τ : Type} (D : Deps τ) (c : Column) : Except Panic (Option (TypedValue τ)) :=
  if c.Type_ = "integer" then
    (assertFloat64 c.Value).map (fun v => some (.int32 (toInt32 D v)))
  else if c.Type_ = "double precision" then
    (assertFloat64 c.Value).map (fun v => some (.float64 v))
  else if c.Type_ = "boolean" then
    (assertBool c.Value).map (fun v => some (.bool v))
  else if c.Type_ = "timestamp with time zone" then
    scanWith D.scanTimestamptz .timestamptz c.Value
  else if c.Type_ = "jsonb" then
    scanWith D.scanJSONB .jsonb c.Value
  else if "character varying".toList.isPrefixOf c.Type_.toList then
    scanWith D.scanVarchar .varchar c.Value
  else if c.Type_ = "date" then
    scanWith D.scanDate .date c.Value
  else if c.Type_ = "text" then
    scanWith D.scanText .text c.Value
  else if c.Type_ = "inet" then
    scanWith D.scanInet .inet c.Value
  else if c.Type_ = "iot_1.sensor_type" then
    scanWith D.scanGenericText .genericText c.Value
  else
    .ok none

/-- The loop `for i := range stmt.Message.Columns` (lines 75-138), started with
the `row` and `row_column` built so far; it returns the final pair. -/
def columnsLoop {τ : Type} (D : Deps τ) :
    List Column → List (TypedValue τ) → List String →
      Except Panic (List (TypedValue τ) × List String)
  | [], row, row_column => .ok (row, row_column)
  | c :: cs, row, row_column =>
    match coerce D c with
    | .error p => .error p
    | .ok none => columnsLoop D cs row (row_column ++ [c.Name])
    | .ok (some v) => columnsLoop D cs (row ++ [v]) (row_column ++ [c.Name])

/-- Go map assignment `m[k] = v`. -/
def mapSet (m : List (String × List String)) (k : String) (v : List String) :
    List (String × List String) :=
  (k, v) :: m.filter (fun kv => kv.1 ≠ k)

/-! ## `case "C"`: the statement builder -/

/-- The variables of the builder loop: `query`, `counter` and `val`. -/
structure Builder (τ : Type) where
  query : String
  counter : Nat
  val : List (TypedValue τ)

/-- The inner loop `for j := range column_values[i]` (lines 152-159); `n` is
`len(column_values[i])` and `j` the index of the next element. -/
def tupleLoop {τ : Type} (n : Nat) : Nat → List (TypedValue τ) → Builder τ → Builder τ
  | _, [], b => b
  | j, x :: xs, b =>
    let val := b.val ++ [x]
    let query := b.query ++ ("$" ++ toString b.counter)
    let counter := b.counter + 1
    let query := if (j : Int) < (n : Int) - 1 then query ++ ", " else query
    tupleLoop n (j + 1) xs { query := query, counter := counter, val := val }

/-- The outer loop `for i := range column_values` (lines 150-164); `n` is
`len(column_values)` and `i` the index of the next row. -/
def rowsLoop {τ : Type} (n : Nat) : Nat → List (List (TypedValue τ)) → Builder τ → Builder τ
  | _, [], b => b
  | i, r :: rs, b =>
    let b1 := { b with query := b.query ++ " ( " }
    let b2 := tupleLoop r.length 0 r b1
    let b3 := { b2 with query := b2.query ++ " ) " }
    let b4 := if (i : Int) < (n : Int) - 1 then { b3 with query := b3.query ++ "," } else b3
    rowsLoop n (i + 1) rs b4

/-- The header `fmt.Sprintf("insert into %s (%s) values ", ...)` (lines 144-145). -/
def header {τ : Type} (D : Deps τ) (v : Vars τ) : String :=
  "insert into " ++ D.sanitize v.schema_name v.table_name ++ " (" ++ v.txn_row_column
    ++ ") values "

/-- Lines 144-164: the query text and the arguments passed to `pool.Exec`. -/
def buildWrite {τ : Type} (D : Deps τ) (v : Vars τ) : Write τ :=
  let b := rowsLoop v.column_values.length 0 v.column_values
    { query := header D v, counter := 1, val := [] }
  { query := b.query, args := b.val }

/-! ## The loop -/

/-- Result of running the loop: the machine after the last line, or the panic
and the machine at that moment. -/
abbrev Outcome (τ : Type) := Except (Panic × Machine τ) (Machine τ)

/-- The machine an outcome ends in. -/
def Outcome.machine {τ : Type} : Outcome τ → Machine τ
  | .ok m => m
  | .error (_, m) => m

/-- The calls to `pool.Exec` made by the time of an outcome. -/
def Outcome.sent {τ : Type} (o : Outcome τ) : List (Write τ) := o.machine.sent

/-- One iteration of `for scanner.Scan()` on a decoded line: the
`switch stmt.Action` (lines 67-174). -/
def step {τ : Type} (D : Deps τ) (m : Machine τ) (stmt : Stmt) : Outcome τ :=
  if stmt.Action = "B" then
    .ok { m with vars := refresh m.vars }
  else if stmt.Action = "I" then
    let v1 := { m.vars with schema_name := stmt.Message.Schema,
                            table_name := stmt.Message.Table }
    match columnsLoop D stmt.Message.Columns [] [] with
    | .error p => .error (p, { m with vars := v1 })
    | .ok (row, row_column) =>
      let key := ",".intercalate row_column
      .ok { m with vars :=
        { v1 with column_values := v1.column_values ++ [row],
                  txn_row_column := key,
                  column_name := mapSet v1.column_name key row_column } }
  else if stmt.Action = "C" then
    let w := buildWrite D m.vars
    let m1 := { m with sent := m.sent ++ [w] }
    if D.exec m.sent w then
      .ok { m1 with vars := refresh { m.vars with txnCount := m.vars.txnCount + 1 } }
    else
      .error (.execError, m1)
  else if stmt.Action = "K" then
    .ok m
  else
    .ok m

/-- The loop over the decoded lines; a panic stops it. -/
def run {τ : Type} (D : Deps τ) : Machine τ → List Stmt → Outcome τ
  | m, [] => .ok m
  | m, e :: es =>
    match step D m e with
    | .error x => .error x
    | .ok m1 => run D m1 es

/-! ## A concrete environment, used for the closed examples -/

/-- Modelled from the spec: first pass of `pgx.Identifier.Sanitize` on one part
(code of the `pgx` library, not under src/), `strings.ReplaceAll(part, "\x00", "")`:
NUL characters are removed. -/
def removeNul : List Char → List Char
  | [] => []
  | c :: cs => if c = Char.ofNat 0 then removeNul cs else c :: removeNul cs

/-- Modelled from the spec: second pass of `pgx.Identifier.Sanitize` on one part
(not under src/): every double quote is doubled. -/
def doubleQuotes : List Char → List Char
  | [] => []
  | c :: cs => if c = '"' then '"' :: '"' :: doubleQuotes cs else c :: doubleQuotes cs

/-- Modelled from the spec: one part of an identifier as written by
`pgx.Identifier.Sanitize` (not under src/): escaped and wrapped in double
quotes. -/
def quoteIdent (s : String) : String :=
  "\"" ++ String.mk (doubleQuotes (removeNul s.toList)) ++ "\""

/-- An environment in which the text-like scanners keep the scanned string,
every `Exec` succeeds and identifiers are quoted as by `pgx`. -/
def textDeps : Deps String where
  scanTimestamptz := fun s => some s
  scanJSONB := fun s => some s
  scanVarchar := fun s => some s
  scanDate := fun s => some s
  scanText := fun s => some s
  scanInet := fun s => some s
  scanGenericText := fun s => some s
  sanitize := fun a b => quoteIdent a ++ "." ++ quoteIdent b
  exec := fun _ _ => true
  int32OutOfRange := fun _ => -2147483648

/-- A line with the given action and an empty message. -/
def mkStmt (action : String) : Stmt :=
  { Action := action, Xid := "", Lsn := "", Timestamp := "",
    Message := { Action := action, Xid := 0, Schema := "", Table := "", Columns := [] } }

/-- An insert line. -/
def mkInsert (schema table : String) (cols : List Column) : Stmt :=
  { Action := "I", Xid := "", Lsn := "", Timestamp := "",
    Message := { Action := "I", Xid := 0, Schema := schema, Table := table, Columns := cols } }

/-! ## Definitions used to state the properties -/

/-- The placeholder with number `k`, written as by `fmt.Sprintf("$%d", k)`. -/
def placeholder (k : Nat) : String := "$" ++ toString k

/-- The placeholder numbers of value-tuple `i` (0-based) when every row has `M`
values: `i*M+1, ..., i*M+M`. -/
def tupleNumbers (M i : Nat) : List Nat := (List.range M).map (fun j => i * M + (j + 1))

/-- The text of value-tuple `i` (0-based) of a statement whose rows have `M`
values each, as the specification describes it: the placeholders
`$(i*M+1), ..., $(i*M+M)` separated by `", "` between `" ( "` and `" ) "`. -/
def specTuple (M i : Nat) : String :=
  " ( " ++ ", ".intercalate ((tupleNumbers M i).map placeholder) ++ " ) "

/-- The text of one value-tuple of `M` placeholders whose first placeholder has
number `c`. -/
def tupleText (c M : Nat) : String :=
  " ( " ++ ", ".intercalate ((List.range M).map (fun j => "$" ++ toString (c + j))) ++ " ) "

/-- The `N` value-tuples of the specification, with a `","` after every tuple
except the last. -/
def specTuples (N M : Nat) : String :=
  ",".intercalate ((List.range N).map (specTuple M))

/-- The numbers of the placeholders of `specTuples N M` in the order in which
they occur in the text. -/
def placeholderNumbers (N M : Nat) : List Nat :=
  ((List.range N).map (tupleNumbers M)).flatten

/-- The lines of a stream whose action is `"I"`. -/
def inserts (evs : List Stmt) : List Stmt := evs.filter (fun e => e.Action = "I")

/-- The lines of a stream that are not keepalives. -/
def dropKeepalives (evs : List Stmt) : List Stmt := evs.filter (fun e => e.Action ≠ "K")

/-- The column loop on the line `e` ends without panic and leaves `row` in the
variable `row`. -/
def Accepts {τ : Type} (D : Deps τ) (e : Stmt) (row : List (TypedValue τ)) : Prop :=
  ∃ names, columnsLoop D e.Message.Columns [] [] = .ok (row, names)

/-- The rows of the insert lines of a stream on which the column loop does not
panic, in stream order. -/
def insertRows {τ : Type} (D : Deps τ) (evs : List Stmt) : List (List (TypedValue τ)) :=
  evs.filterMap (fun e =>
    if e.Action = "I" then
      match columnsLoop D e.Message.Columns [] [] with
      | .ok (row, _) => some row
      | .error _ => none
    else none)

/-- An insert into `s.t` with the single column `id`. -/
def insertId : Stmt := mkInsert "s" "t" [⟨"id", "integer", .number 1⟩]

/-- An insert into the same table `s.t` with the single column `name`. -/
def insertName : Stmt := mkInsert "s" "t" [⟨"name", "text", .string "a"⟩]

/-- An insert with the column `id` into another table, `s.u`. -/
def insertOtherTable : Stmt := mkInsert "s" "u" [⟨"id", "integer", .number 2⟩]

/-- The machine after `Begin` and `insertId`. -/
def afterInsertId : Machine String :=
  (run textDeps Machine.init [mkStmt "B", insertId]).machine

/-- An insert whose first column has the type tag `bigint`, which no case of the
type switch matches. -/
def insertBigint : Stmt :=
  mkInsert "s" "t" [⟨"id", "bigint", .number 1⟩, ⟨"ok", "boolean", .bool true⟩]

/-- An insert whose only column has a custom type tag. -/
def insertEnum : Stmt := mkInsert "public" "t" [⟨"kind", "public.my_enum", .string "a"⟩]


/-! ## Definitions used to state the coercion and action properties -/

/-- Truncation of a rational toward zero: the floor of a non-negative number,
the ceiling of a negative one. -/
def truncToZero (x : ℚ) : Int := if 0 ≤ x then ⌊x⌋ else ⌈x⌉

/-- The dynamic value is a `float64`. -/
def JValue.isNumber : JValue → Bool
  | .number _ => true
  | _ => false

/-- The dynamic value is a `bool`. -/
def JValue.isBool : JValue → Bool
  | .bool _ => true
  | _ => false

/-- The dynamic value is a `string`. -/
def JValue.isString : JValue → Bool
  | .string _ => true
  | _ => false

/-- The type tags whose case asserts `c.Value.(float64)`. -/
def expectsNumber (t : String) : Bool := t = "integer" || t = "double precision"

/-- The type tag whose case asserts `c.Value.(bool)`. -/
def expectsBool (t : String) : Bool := t = "boolean"

/-- The type tags whose case asserts `c.Value.(string)`. -/
def expectsString (t : String) : Bool :=
  t = "timestamp with time zone" || t = "jsonb" ||
  "character varying".toList.isPrefixOf t.toList || t = "date" || t = "text" ||
  t = "inet" || t = "iot_1.sensor_type"

/-- The column has a type tag matched by the switch and a raw value of another
dynamic type than the one its case asserts. -/
def shapeMismatch (c : Column) : Bool :=
  (expectsNumber c.Type_ && !c.Value.isNumber) || (expectsBool c.Type_ && !c.Value.isBool) ||
  (expectsString c.Type_ && !c.Value.isString)

/-- The actions that have a case in `switch stmt.Action`. -/
def knownAction (a : String) : Bool := a = "B" || a = "I" || a = "C" || a = "K"

/-- The lines of a stream whose action has a case in the switch. -/
def dropUnknown (evs : List Stmt) : List Stmt := evs.filter (fun e => knownAction e.Action)

/-- An insert with one well-formed column and one `integer` column that carries
a string. -/
def insertBadShape : Stmt :=
  mkInsert "s" "t" [⟨"ok", "boolean", .bool true⟩, ⟨"id", "integer", .string "1"⟩]

/-- An insert whose column name contains a double quote, a closing parenthesis
and further statement text. -/
def insertHostileName : Stmt :=
  mkInsert "s" "t" [⟨"id\") values (0); --", "integer", .number 1⟩]

/-! ## Quoted identifiers -/

/-- Modelled from the spec: `pgx.Identifier{schema, table}.Sanitize()`, code of
the `pgx` library that is not under src/. Each of the two parts is escaped
(NUL characters removed, every double quote doubled) and wrapped in double
quotes, as `quoteIdent` does, and the two parts are joined by `"."`. -/
def sanitize (schema table : String) : String := quoteIdent schema ++ "." ++ quoteIdent table

/-- A syntactically valid JSON text. A number literal is given by the `float64`
it denotes (a rational; what `encoding/json` stores in an `interface{}`) and,
when the literal is a plain integer in the range of Go's `int`, by that integer
(what is stored in an `int` field; any other literal is a type error there).
A literal outside the range of `float64` is not represented. -/
inductive Json where
  | null
  | bool (b : Bool)
  | number (float : ℚ) (int : Option Int)
  | string (s : String)
  | array (xs : List Json)
  | object (kvs : List (String × Json))

mutual
/-- Decoding into an `interface{}` (the field `Column.Value`). -/
def Json.toValue : Json → JValue
  | .null => .null
  | .bool b => .bool b
  | .number x _ => .number x
  | .string s => .string s
  | .array xs => .array (Json.toValues xs)
  | .object kvs => .object (Json.toFields kvs)
/-- Decoding of the elements of an array into `[]interface{}`. -/
def Json.toValues : List Json → List JValue
  | [] => []
  | x :: xs => x.toValue :: Json.toValues xs
/-- Decoding of the members of an object into `map[string]interface{}`. -/
def Json.toFields : List (String × Json) → List (String × JValue)
  | [] => []
  | (k, v) :: kvs => (k, v.toValue) :: Json.toFields kvs
end

/-- The second insert of the example. -/
def exampleInsert2 : Stmt :=
  mkInsert "s" "t" [⟨"id", "integer", .number 2⟩, ⟨"name", "text", .string "b"⟩]

/-- The machine after `Begin` and the first insert of the example. -/
def afterExampleInsert1 : Machine String :=
  (run textDeps Machine.init
    [mkStmt "B",
      mkInsert "s" "t" [⟨"id", "integer", .number 1⟩, ⟨"name", "text", .string "a"⟩]]).machine

/-- The machine after `Begin` and the two inserts of the example. -/
def afterExampleInserts : Machine String :=
  (step textDeps afterExampleInsert1 exampleInsert2).machine

/-! ## Strings joined with a separator -/

theorem intercalate_go_append (s : String) :
    ∀ (l : List String) (acc x : String),
      String.intercalate.go (acc ++ x) s l = acc ++ String.intercalate.go x s l
  | [], _, _ => rfl
  | a :: as, acc, x => by
    simp only [String.intercalate.go, String.append_assoc]
    exact intercalate_go_append s as acc (x ++ (s ++ a))

theorem intercalate_singleton (s a : String) : s.intercalate [a] = a := rfl

theorem intercalate_cons_of_ne_nil (s a : String) :
    ∀ l : List String, l ≠ [] → s.intercalate (a :: l) = a ++ (s ++ s.intercalate l)
  | [], h => absurd rfl h
  | b :: l, _ => by
    show String.intercalate.go (a ++ s ++ b) s l = a ++ (s ++ String.intercalate.go b s l)
    rw [intercalate_go_append, String.append_assoc]

/-! ## The statement builder -/

theorem range_succ_map {α : Type} (f : Nat → α) (n : Nat) :
    (List.range (n + 1)).map f = f 0 :: (List.range n).map (fun k => f (k + 1)) := by
  rw [List.range_succ_eq_map, List.map_cons, List.map_map]
  rfl

theorem tupleLoop_eq {τ : Type} (n : Nat) :
    ∀ (xs : List (TypedValue τ)) (j : Nat) (b : Builder τ), n = j + xs.length →
      tupleLoop n j xs b =
        { query := b.query ++ ", ".intercalate
            ((List.range xs.length).map (fun k => "$" ++ toString (b.counter + k))),
          counter := b.counter + xs.length,
          val := b.val ++ xs }
  | [], _, b, _ => by
    simp [tupleLoop, String.intercalate]
  | [x], j, b, h => by
    have hc : ¬ ((j : Int) < (n : Int) - 1) := by
      simp only [List.length_singleton] at h
      omega
    have hr : List.range 1 = [0] := rfl
    simp [tupleLoop, hc, hr, intercalate_singleton]
  | x :: y :: xs, j, b, h => by
    have hc : (j : Int) < (n : Int) - 1 := by
      simp only [List.length_cons] at h
      omega
    have ih := tupleLoop_eq n (y :: xs) (j + 1)
      { query := b.query ++ ("$" ++ toString b.counter) ++ ", ", counter := b.counter + 1,
        val := b.val ++ [x] } (by simp only [List.length_cons] at h ⊢; omega)
    rw [tupleLoop]
    simp only [hc, if_true]
    rw [ih]
    have hl : (x :: y :: xs).length = (y :: xs).length + 1 := rfl
    rw [hl, range_succ_map, intercalate_cons_of_ne_nil]
    · have hf : (fun k => "$" ++ toString (b.counter + 1 + k)) =
          (fun k => "$" ++ toString (b.counter + (k + 1))) := by
        funext k
        rw [Nat.add_assoc, Nat.add_comm 1 k]
      simp only [String.append_assoc, List.append_assoc, List.singleton_append,
        Nat.add_zero, List.length_cons, Builder.mk.injEq, hf]
      refine ⟨trivial, ?_, trivial⟩
      omega
    · simp [List.range_succ_eq_map]

theorem tupleLoop_row {τ : Type} (r : List (TypedValue τ)) (b : Builder τ) :
    tupleLoop r.length 0 r b =
      { query := b.query ++ ", ".intercalate
          ((List.range r.length).map (fun k => "$" ++ toString (b.counter + k))),
        counter := b.counter + r.length,
        val := b.val ++ r } :=
  tupleLoop_eq r.length r 0 b (by omega)

theorem rowsLoop_val {τ : Type} (n : Nat) :
    ∀ (rs : List (List (TypedValue τ))) (i : Nat) (b : Builder τ),
      (rowsLoop n i rs b).val = b.val ++ rs.flatten
  | [], _, b => by simp [rowsLoop]
  | r :: rs, i, b => by
    rw [rowsLoop]
    simp only [tupleLoop_row]
    split <;> simp [rowsLoop_val n rs]

theorem rowsLoop_eq {τ : Type} (n M : Nat) :
    ∀ (rs : List (List (TypedValue τ))) (i : Nat) (b : Builder τ), n = i + rs.length →
      (∀ r ∈ rs, r.length = M) →
      rowsLoop n i rs b =
        { query := b.query ++ ",".intercalate
            ((List.range rs.length).map (fun k => tupleText (b.counter + k * M) M)),
          counter := b.counter + rs.length * M,
          val := b.val ++ rs.flatten }
  | [], _, b, _, _ => by
    simp [rowsLoop, String.intercalate]
  | [r], i, b, h, hM => by
    have hc : ¬ ((i : Int) < (n : Int) - 1) := by
      simp only [List.length_singleton] at h
      omega
    have hr : List.range 1 = [0] := rfl
    have hlen : r.length = M := hM r (List.mem_singleton.mpr rfl)
    subst hlen
    simp [rowsLoop, tupleLoop_row, hc, hr, intercalate_singleton, tupleText,
      String.append_assoc]
  | r :: r2 :: rs, i, b, h, hM => by
    have hc : (i : Int) < (n : Int) - 1 := by
      simp only [List.length_cons] at h
      omega
    have hlen : r.length = M := hM r (List.mem_cons_self _ _)
    subst hlen
    have ih := rowsLoop_eq n r.length (r2 :: rs) (i + 1)
      { query := b.query ++ " ( " ++ ", ".intercalate
          ((List.range r.length).map (fun k => "$" ++ toString (b.counter + k))) ++ " ) " ++ ",",
        counter := b.counter + r.length,
        val := b.val ++ r }
      (by simp only [List.length_cons] at h ⊢; omega)
      (fun r1 h1 => hM r1 (List.mem_cons_of_mem _ h1))
    rw [rowsLoop]
    simp only [tupleLoop_row, hc, if_true]
    rw [ih]
    have hl : (r :: r2 :: rs).length = (r2 :: rs).length + 1 := rfl
    rw [hl, range_succ_map, intercalate_cons_of_ne_nil]
    · have hf : (fun k => tupleText (b.counter + r.length + k * r.length) r.length) =
          (fun k => tupleText (b.counter + (k + 1) * r.length) r.length) := by
        funext k
        rw [Nat.add_assoc, Nat.succ_mul, Nat.add_comm r.length (k * r.length)]
      have ht : tupleText (b.counter + 0 * r.length) r.length =
          " ( " ++ ", ".intercalate
            ((List.range r.length).map (fun k => "$" ++ toString (b.counter + k))) ++ " ) " := by
        simp [tupleText]
      rw [ht, hf]
      simp only [String.append_assoc, List.append_assoc, List.flatten_cons,
        List.length_cons, Builder.mk.injEq]
      refine ⟨trivial, ?_, trivial⟩
      ring
    · simp [List.range_succ_eq_map]

theorem tupleText_one (M k : Nat) : tupleText (1 + k * M) M = specTuple M k := by
  have hf : (fun j => "$" ++ toString (1 + k * M + j)) =
      (placeholder ∘ fun j => k * M + (j + 1)) := by
    funext j
    simp only [Function.comp, placeholder]
    rw [Nat.add_comm 1 (k * M), Nat.add_assoc, Nat.add_comm 1 j]
  simp only [tupleText, specTuple, tupleNumbers, List.map_map, hf]

theorem placeholderNumbers_eq (M : Nat) :
    ∀ N : Nat, placeholderNumbers N M = (List.range (N * M)).map (fun k => k + 1)
  | 0 => by simp [placeholderNumbers]
  | N + 1 => by
    have ih := placeholderNumbers_eq M N
    simp only [placeholderNumbers] at ih ⊢
    rw [List.range_succ, List.map_append, List.flatten_append, ih, Nat.succ_mul,
      List.range_add, List.map_append]
    simp [tupleNumbers, List.map_map, Function.comp, Nat.add_assoc]

theorem buildWrite_args {τ : Type} (D : Deps τ) (v : Vars τ) :
    (buildWrite D v).args = v.column_values.flatten := by
  simp [buildWrite, rowsLoop_val]

theorem buildWrite_query {τ : Type} (D : Deps τ) (v : Vars τ) (M : Nat)
    (hM : ∀ r ∈ v.column_values, r.length = M) :
    (buildWrite D v).query = header D v ++ specTuples v.column_values.length M := by
  simp only [buildWrite]
  rw [rowsLoop_eq v.column_values.length M v.column_values 0 _ (by omega) hM]
  simp only [specTuples, tupleText_one]

theorem buildWrite_eq {τ : Type} (D : Deps τ) (v : Vars τ) (M : Nat)
    (hM : ∀ r ∈ v.column_values, r.length = M) :
    buildWrite D v =
      { query := header D v ++ specTuples v.column_values.length M,
        args := v.column_values.flatten } := by
  have h : buildWrite D v = ⟨(buildWrite D v).query, (buildWrite D v).args⟩ := rfl
  rw [h, buildWrite_query D v M hM, buildWrite_args]

/-! ## The column loop -/

theorem columnsLoop_names {τ : Type} (D : Deps τ) :
    ∀ (cs : List Column) (row : List (TypedValue τ)) (rc : List String)
      (row1 : List (TypedValue τ)) (rc1 : List String),
      columnsLoop D cs row rc = .ok (row1, rc1) → rc1 = rc ++ cs.map (fun c => c.Name)
  | [], row, rc, row1, rc1, h => by
    simp only [columnsLoop, Except.ok.injEq, Prod.mk.injEq] at h
    simp [h.2]
  | c :: cs, row, rc, row1, rc1, h => by
    rw [columnsLoop] at h
    split at h
    · cases h
    · rw [columnsLoop_names D cs _ _ _ _ h]; simp
    · rw [columnsLoop_names D cs _ _ _ _ h]; simp

theorem step_begin {τ : Type} (D : Deps τ) (m : Machine τ) (e : Stmt) (h : e.Action = "B") :
    step D m e = .ok { m with vars := refresh m.vars } := by
  simp [step, h]

theorem step_keepalive {τ : Type} (D : Deps τ) (m : Machine τ) (e : Stmt)
    (h : e.Action = "K") : step D m e = .ok m := by
  simp [step, h]

theorem step_insert_ok {τ : Type} (D : Deps τ) (m : Machine τ) (e : Stmt)
    (row : List (TypedValue τ)) (names : List String) (h : e.Action = "I")
    (hl : columnsLoop D e.Message.Columns [] [] = .ok (row, names)) :
    step D m e = .ok { m with vars :=
      { m.vars with schema_name := e.Message.Schema,
                    table_name := e.Message.Table,
                    column_values := m.vars.column_values ++ [row],
                    txn_row_column := ",".intercalate names,
                    column_name := mapSet m.vars.column_name (",".intercalate names) names } } := by
  simp [step, h, hl]

theorem step_insert_panic {τ : Type} (D : Deps τ) (m : Machine τ) (e : Stmt) (p : Panic)
    (h : e.Action = "I") (hl : columnsLoop D e.Message.Columns [] [] = .error p) :
    step D m e = .error (p, { m with vars :=
      { m.vars with schema_name := e.Message.Schema, table_name := e.Message.Table } }) := by
  simp [step, h, hl]

theorem step_commit {τ : Type} (D : Deps τ) (m : Machine τ) (e : Stmt) (h : e.Action = "C") :
    step D m e =
      if D.exec m.sent (buildWrite D m.vars) then
        .ok { vars := refresh { m.vars with txnCount := m.vars.txnCount + 1 },
              sent := m.sent ++ [buildWrite D m.vars] }
      else
        .error (.execError, { m with sent := m.sent ++ [buildWrite D m.vars] }) := by
  simp [step, h]

theorem step_other {τ : Type} (D : Deps τ) (m : Machine τ) (e : Stmt)
    (hB : e.Action ≠ "B") (hI : e.Action ≠ "I") (hC : e.Action ≠ "C") :
    step D m e = .ok m := by
  simp [step, hB, hI, hC]

theorem step_commit_sent {τ : Type} (D : Deps τ) (m : Machine τ) (e : Stmt)
    (h : e.Action = "C") : (step D m e).sent = m.sent ++ [buildWrite D m.vars] := by
  rw [step_commit D m e h]
  split <;> rfl

/-! ## The loop -/

theorem run_append {τ : Type} (D : Deps τ) :
    ∀ (xs ys : List Stmt) (m : Machine τ),
      run D m (xs ++ ys) =
        match run D m xs with
        | .error x => .error x
        | .ok m1 => run D m1 ys
  | [], _, _ => rfl
  | e :: xs, ys, m => by
    simp only [List.cons_append, run]
    cases step D m e with
    | error x => rfl
    | ok m1 => exact run_append D xs ys m1

theorem run_append_ok {τ : Type} (D : Deps τ) (xs ys : List Stmt) (m m1 : Machine τ)
    (h : run D m xs = .ok m1) : run D m (xs ++ ys) = run D m1 ys := by
  rw [run_append, h]

theorem run_cons_ok {τ : Type} (D : Deps τ) (e : Stmt) (es : List Stmt) (m m1 : Machine τ)
    (h : step D m e = .ok m1) : run D m (e :: es) = run D m1 es := by
  simp [run, h]

/-! ## Streams of inserts and keepalives -/

theorem inserts_cons_insert (e : Stmt) (es : List Stmt) (h : e.Action = "I") :
    inserts (e :: es) = e :: inserts es := by
  simp [inserts, h]

theorem inserts_cons_other (e : Stmt) (es : List Stmt) (h : e.Action ≠ "I") :
    inserts (e :: es) = inserts es := by
  simp [inserts, h]

theorem run_body {τ : Type} (D : Deps τ) :
    ∀ (body : List Stmt) (m : Machine τ) (rows : List (List (TypedValue τ))),
      (∀ e ∈ body, e.Action = "K" ∨ e.Action = "I") →
      List.Forall₂ (Accepts D) (inserts body) rows →
      ∃ m1, run D m body = .ok m1 ∧ m1.sent = m.sent ∧
        m1.vars.column_values = m.vars.column_values ++ rows ∧
        m1.vars.txnCount = m.vars.txnCount
  | [], m, rows, _, hr => by
    cases hr
    exact ⟨m, rfl, rfl, by simp, rfl⟩
  | e :: es, m, rows, hb, hr => by
    have hes : ∀ x ∈ es, x.Action = "K" ∨ x.Action = "I" :=
      fun x hx => hb x (List.mem_cons_of_mem _ hx)
    rcases hb e (List.mem_cons_self _ _) with hK | hI
    · have hne : e.Action ≠ "I" := by rw [hK]; decide
      rw [inserts_cons_other e es hne] at hr
      obtain ⟨m1, h1, h2, h3, h4⟩ := run_body D es m rows hes hr
      exact ⟨m1, by rw [run_cons_ok D e es m m (step_keepalive D m e hK), h1], h2, h3, h4⟩
    · rw [inserts_cons_insert e es hI] at hr
      cases hr with
      | cons hacc hrest =>
        obtain ⟨names, hl⟩ := hacc
        obtain ⟨m1, h1, h2, h3, h4⟩ := run_body D es _ _ hes hrest
        refine ⟨m1, ?_, ?_, ?_, ?_⟩
        · rw [run_cons_ok D e es m _ (step_insert_ok D m e _ names hI hl), h1]
        · rw [h2]
        · rw [h3]; simp
        · rw [h4]

theorem flatten_length_uniform {α : Type} (M : Nat) :
    ∀ rows : List (List α), (∀ r ∈ rows, r.length = M) → rows.flatten.length = rows.length * M
  | [], _ => by simp
  | r :: rs, h => by
    have ih := flatten_length_uniform M rs (fun x hx => h x (List.mem_cons_of_mem _ hx))
    have hr := h r (List.mem_cons_self _ _)
    rw [List.flatten_cons, List.length_append, ih, hr, List.length_cons, Nat.succ_mul]
    omega

theorem flatten_getElem?_uniform {α : Type} (M : Nat) :
    ∀ (rows : List (List α)), (∀ r ∈ rows, r.length = M) → ∀ i j : Nat, j < M →
      rows.flatten[i * M + j]? = (rows[i]?).bind (fun r => r[j]?)
  | [], _, i, j, _ => by simp
  | r :: rs, h, 0, j, hj => by
    have hr := h r (List.mem_cons_self _ _)
    rw [List.flatten_cons, Nat.zero_mul, Nat.zero_add,
      List.getElem?_append_left (by omega)]
    simp
  | r :: rs, h, i + 1, j, hj => by
    have hr := h r (List.mem_cons_self _ _)
    have ih := flatten_getElem?_uniform M rs (fun x hx => h x (List.mem_cons_of_mem _ hx)) i j hj
    have hle : r.length ≤ (i + 1) * M + j := by rw [hr, Nat.succ_mul]; omega
    rw [List.flatten_cons, List.getElem?_append_right hle]
    have hidx : (i + 1) * M + j - r.length = i * M + j := by rw [hr, Nat.succ_mul]; omega
    rw [hidx, ih]
    simp

theorem run_single {τ : Type} (D : Deps τ) (m : Machine τ) (e : Stmt) :
    run D m [e] = step D m e := by
  simp only [run]
  cases step D m e <;> rfl

/-- Begin, then inserts and keepalives whose inserts are accepted with rows
`rows`, then Commit: exactly one call to `Exec` is added, built from the
variables left by the last insert, and its arguments are the rows in order. -/
theorem run_transaction {τ : Type} (D : Deps τ) (m : Machine τ) (b c : Stmt)
    (body : List Stmt) (rows : List (List (TypedValue τ)))
    (hb : b.Action = "B") (hc : c.Action = "C")
    (hbody : ∀ e ∈ body, e.Action = "K" ∨ e.Action = "I")
    (hrows : List.Forall₂ (Accepts D) (inserts body) rows) :
    ∃ q, (run D m (b :: body ++ [c])).sent = m.sent ++ [⟨q, rows.flatten⟩] := by
  obtain ⟨m1, h1, h2, h3, _⟩ := run_body D body { m with vars := refresh m.vars } rows hbody hrows
  refine ⟨(buildWrite D m1.vars).query, ?_⟩
  rw [List.cons_append, run_cons_ok D b _ m _ (step_begin D m b hb),
    run_append_ok D body [c] _ m1 h1, run_single, step_commit_sent D m1 c hc, h2]
  have hargs : (buildWrite D m1.vars).args = rows.flatten := by
    rw [buildWrite_args, h3]; rfl
  rw [← hargs]

theorem inserts_eq_self :
    ∀ evs : List Stmt, (∀ e ∈ evs, e.Action = "I") → inserts evs = evs
  | [], _ => rfl
  | e :: es, h => by
    rw [inserts_cons_insert e es (h e (List.mem_cons_self _ _)),
      inserts_eq_self es (fun x hx => h x (List.mem_cons_of_mem _ hx))]

theorem insertRows_cons_other {τ : Type} (D : Deps τ) (e : Stmt) (es : List Stmt)
    (h : e.Action ≠ "I") : insertRows D (e :: es) = insertRows D es := by
  simp [insertRows, List.filterMap_cons, h]

theorem insertRows_cons_ok {τ : Type} (D : Deps τ) (e : Stmt) (es : List Stmt)
    (row : List (TypedValue τ)) (names : List String) (h : e.Action = "I")
    (hl : columnsLoop D e.Message.Columns [] [] = .ok (row, names)) :
    insertRows D (e :: es) = row :: insertRows D es := by
  simp [insertRows, List.filterMap_cons, h, hl]

theorem coerce_panic {τ : Type} (D : Deps τ) (c : Column) (p : Panic)
    (h : coerce D c = .error p) : p = .typeAssertion ∨ p = .scanError := by
  have hs : ∀ (scan : String → Option τ) (wrap : τ → TypedValue τ),
      scanWith scan wrap c.Value = .error p → p = .typeAssertion ∨ p = .scanError := by
    intro scan wrap hsw
    unfold scanWith at hsw
    cases hv : c.Value <;> simp only [hv, assertString] at hsw <;>
      first
      | (cases hsw; exact Or.inl rfl)
      | (split at hsw
         · cases hsw; exact Or.inr rfl
         · cases hsw)
  have hf : ∀ (k : ℚ → Option (TypedValue τ)),
      (assertFloat64 c.Value).map k = .error p → p = .typeAssertion ∨ p = .scanError := by
    intro k hk
    cases hv : c.Value <;> simp only [hv, assertFloat64, Except.map] at hk <;> cases hk <;>
      exact Or.inl rfl
  have hbo : ∀ (k : Bool → Option (TypedValue τ)),
      (assertBool c.Value).map k = .error p → p = .typeAssertion ∨ p = .scanError := by
    intro k hk
    cases hv : c.Value <;> simp only [hv, assertBool, Except.map] at hk <;> cases hk <;>
      exact Or.inl rfl
  unfold coerce at h
  split at h
  · exact hf _ h
  split at h
  · exact hf _ h
  split at h
  · exact hbo _ h
  split at h
  · exact hs _ _ h
  split at h
  · exact hs _ _ h
  split at h
  · exact hs _ _ h
  split at h
  · exact hs _ _ h
  split at h
  · exact hs _ _ h
  split at h
  · exact hs _ _ h
  split at h
  · exact hs _ _ h
  · cases h

theorem columnsLoop_panic {τ : Type} (D : Deps τ) :
    ∀ (cs : List Column) (row : List (TypedValue τ)) (rc : List String) (p : Panic),
      columnsLoop D cs row rc = .error p → p = .typeAssertion ∨ p = .scanError
  | [], _, _, _, h => by simp [columnsLoop] at h
  | c :: cs, row, rc, p, h => by
    rw [columnsLoop] at h
    split at h
    · rename_i q hq
      cases h
      exact coerce_panic D c _ hq
    · exact columnsLoop_panic D cs _ _ p h
    · exact columnsLoop_panic D cs _ _ p h

theorem run_sent_sublist {τ : Type} (D : Deps τ) :
    ∀ (evs : List Stmt) (m : Machine τ),
      ∃ (ws : List (Write τ)) (segs : List (List (List (TypedValue τ)))),
        (run D m evs).sent = m.sent ++ ws ∧
        ws.map (fun w => w.args) = segs.map List.flatten ∧
        List.Sublist segs.flatten (m.vars.column_values ++ insertRows D evs)
  | [], m => ⟨[], [], by simp [run, Outcome.sent, Outcome.machine], rfl, by simp⟩
  | e :: es, m => by
    by_cases hB : e.Action = "B"
    · have hI : e.Action ≠ "I" := by rw [hB]; decide
      obtain ⟨ws, segs, h1, h2, h3⟩ := run_sent_sublist D es { m with vars := refresh m.vars }
      refine ⟨ws, segs, ?_, h2, ?_⟩
      · rw [run_cons_ok D e es m _ (step_begin D m e hB), h1]
      · rw [insertRows_cons_other D e es hI]
        exact List.sublist_append_of_sublist_right (by simpa [refresh] using h3)
    · by_cases hI : e.Action = "I"
      · cases hl : columnsLoop D e.Message.Columns [] [] with
        | error p =>
          refine ⟨[], [], ?_, rfl, by simp⟩
          simp [run, step_insert_panic D m e p hI hl, Outcome.sent, Outcome.machine]
        | ok res =>
          obtain ⟨row, names⟩ := res
          obtain ⟨ws, segs, h1, h2, h3⟩ := run_sent_sublist D es
            { m with vars :=
              { m.vars with schema_name := e.Message.Schema,
                            table_name := e.Message.Table,
                            column_values := m.vars.column_values ++ [row],
                            txn_row_column := ",".intercalate names,
                            column_name :=
                              mapSet m.vars.column_name (",".intercalate names) names } }
          refine ⟨ws, segs, ?_, h2, ?_⟩
          · rw [run_cons_ok D e es m _ (step_insert_ok D m e row names hI hl), h1]
          · rw [insertRows_cons_ok D e es row names hI hl]
            simpa using h3
      · by_cases hC : e.Action = "C"
        · rw [insertRows_cons_other D e es hI]
          cases hx : D.exec m.sent (buildWrite D m.vars) with
          | false =>
            refine ⟨[buildWrite D m.vars], [m.vars.column_values], ?_, ?_, by simp⟩
            · simp [run, step_commit D m e hC, hx, Outcome.sent, Outcome.machine]
            · simp [buildWrite_args]
          | true =>
            obtain ⟨ws, segs, h1, h2, h3⟩ := run_sent_sublist D es
              { vars := refresh { m.vars with txnCount := m.vars.txnCount + 1 },
                sent := m.sent ++ [buildWrite D m.vars] }
            refine ⟨buildWrite D m.vars :: ws, m.vars.column_values :: segs, ?_, ?_, ?_⟩
            · have hs : step D m e = .ok
                  { vars := refresh { m.vars with txnCount := m.vars.txnCount + 1 },
                    sent := m.sent ++ [buildWrite D m.vars] } := by
                rw [step_commit D m e hC, hx]; rfl
              rw [run_cons_ok D e es m _ hs, h1]
              simp
            · simp [buildWrite_args, h2]
            · rw [List.flatten_cons]
              exact List.Sublist.append (List.Sublist.refl _) (by simpa [refresh] using h3)
        · obtain ⟨ws, segs, h1, h2, h3⟩ := run_sent_sublist D es m
          refine ⟨ws, segs, ?_, h2, ?_⟩
          · rw [run_cons_ok D e es m _ (step_other D m e hB hI hC), h1]
          · rw [insertRows_cons_other D e es hI]
            exact h3

/-! ## Properties of the replay loop -/

/-- C2: at a Commit that follows an accepted insert, with every buffered row of
length `M`, the statement text is the header `insert into <sanitized
schema.table> (<column names joined by ",">) values ` followed by the `N`
value-tuples ` ( $(i*M+1), ..., $(i*M+M) ) ` separated by `","`; the placeholder
numbers occurring in the text are `1, ..., N*M` in this order, and the argument
list has `N*M` elements, the one at index `i*M+j` (the one `$(i*M+j+1)` refers
to) being value `j` of row `i`. -/
theorem commit_statement_text {τ : Type} (D : Deps τ) (m0 m : Machine τ) (ins c : Stmt)
    (M : Nat) (hI : ins.Action = "I") (hstep : step D m0 ins = .ok m) (hC : c.Action = "C")
    (hM : ∀ r ∈ m.vars.column_values, r.length = M) :
    1 ≤ m.vars.column_values.length ∧
    (step D m c).sent = m.sent ++
      [⟨"insert into " ++ D.sanitize ins.Message.Schema ins.Message.Table ++ " (" ++
          ",".intercalate (ins.Message.Columns.map (fun col => col.Name)) ++ ") values " ++
          specTuples m.vars.column_values.length M,
        m.vars.column_values.flatten⟩] ∧
    placeholderNumbers m.vars.column_values.length M =
      (List.range (m.vars.column_values.length * M)).map (fun k => k + 1) ∧
    m.vars.column_values.flatten.length = m.vars.column_values.length * M ∧
    ∀ i j : Nat, j < M →
      m.vars.column_values.flatten[i * M + j]? =
        (m.vars.column_values[i]?).bind (fun r => r[j]?) := by
  have hv : m.vars.schema_name = ins.Message.Schema ∧ m.vars.table_name = ins.Message.Table ∧
      m.vars.txn_row_column = ",".intercalate (ins.Message.Columns.map (fun col => col.Name)) ∧
      1 ≤ m.vars.column_values.length := by
    cases hl : columnsLoop D ins.Message.Columns [] [] with
    | error p =>
      rw [step_insert_panic D m0 ins p hI hl] at hstep
      cases hstep
    | ok res =>
      obtain ⟨row, names⟩ := res
      rw [step_insert_ok D m0 ins row names hI hl] at hstep
      have hn := columnsLoop_names D _ _ _ _ _ hl
      cases hstep
      simp [hn]
  obtain ⟨h1, h2, h3, h4⟩ := hv
  refine ⟨h4, ?_, placeholderNumbers_eq M _, flatten_length_uniform M _ hM,
    flatten_getElem?_uniform M _ hM⟩
  rw [step_commit_sent D m c hC, buildWrite_eq D m.vars M hM, header, h1, h2, h3]

/-- Instance of C2: a Commit after `Begin` and the two inserts of the example,
two rows of two values. -/
theorem commit_statement_text_witness :
    exampleInsert2.Action = "I" ∧
    step textDeps afterExampleInsert1 exampleInsert2 = .ok afterExampleInserts ∧
    (∀ r ∈ afterExampleInserts.vars.column_values, r.length = 2) ∧
    afterExampleInserts.vars.column_values.length = 2 ∧
    (step textDeps afterExampleInserts (mkStmt "C")).sent = afterExampleInserts.sent ++
      [⟨"insert into " ++
          textDeps.sanitize exampleInsert2.Message.Schema exampleInsert2.Message.Table
          ++ " (" ++ ",".intercalate (exampleInsert2.Message.Columns.map (fun col => col.Name))
          ++ ") values " ++ specTuples afterExampleInserts.vars.column_values.length 2,
        afterExampleInserts.vars.column_values.flatten⟩] ∧
    specTuples 2 2 = " ( $1, $2 ) , ( $3, $4 ) " :=
  ⟨rfl, rfl, by decide, by decide,
    (commit_statement_text textDeps afterExampleInsert1 afterExampleInserts exampleInsert2
      (mkStmt "C") 2 rfl rfl rfl (by decide)).2.1,
    by decide⟩

/-- C3 (evaluation of the code): a Commit with no buffered row still calls
`Exec`. On `Begin, Commit`, and on a Commit at the start of the stream, one
call is made, with the header alone as statement text (empty schema, table and
column list, no value-tuple) and no argument. -/
theorem commit_without_rows_calls_exec {τ : Type} (D : Deps τ) :
    (run D Machine.init [mkStmt "B", mkStmt "C"]).sent =
      [⟨"insert into " ++ D.sanitize "" "" ++ " (" ++ "" ++ ") values ", []⟩] ∧
    (run D Machine.init [mkStmt "C"]).sent =
      [⟨"insert into " ++ D.sanitize "" "" ++ " (" ++ "" ++ ") values ", []⟩] := by
  constructor
  · rw [run_cons_ok D _ _ _ _ (step_begin D _ _ rfl), run_single, step_commit_sent D _ _ rfl]
    rfl
  · rw [run_single, step_commit_sent D _ _ rfl]
    rfl

/-- C4 (counterexample): after `Begin` and an insert with the column `id`, an
insert into the same table with the column `name` is not rejected: the step
succeeds, its row is appended and the column list becomes `name`. -/
theorem column_mismatch_not_rejected :
    afterInsertId.vars.txn_row_column = "id" ∧
    afterInsertId.vars.column_values = [[.int32 1]] ∧
    ∃ m2, step textDeps afterInsertId insertName = .ok m2 ∧
      m2.vars.column_values = [[.int32 1], [.text "a"]] ∧
      m2.vars.column_values ≠ afterInsertId.vars.column_values ∧
      m2.vars.txn_row_column = "name" :=
  ⟨by decide, by decide, _, rfl, by decide, by decide, by decide⟩

/-- C4 (amended): an insert is never rejected for its column names. If the
column loop ends without panic, the step succeeds, the rows buffered before
stay in place with the new row appended after them, and the column list becomes
the names of this insert joined by `","`. The only failure is a panic of the
column loop (type assertion or `Scan`), and then the buffered rows and the
column list are what they were before. -/
theorem insert_ignores_established_columns {τ : Type} (D : Deps τ) (m : Machine τ) (e : Stmt)
    (hI : e.Action = "I") :
    (∀ row names, columnsLoop D e.Message.Columns [] [] = .ok (row, names) →
      ∃ m1, step D m e = .ok m1 ∧
        m1.vars.column_values = m.vars.column_values ++ [row] ∧
        m1.vars.txn_row_column = ",".intercalate (e.Message.Columns.map (fun c => c.Name)) ∧
        m1.sent = m.sent) ∧
    (∀ p, columnsLoop D e.Message.Columns [] [] = .error p →
      ∃ m1, step D m e = .error (p, m1) ∧ (p = .typeAssertion ∨ p = .scanError) ∧
        m1.vars.column_values = m.vars.column_values ∧
        m1.vars.txn_row_column = m.vars.txn_row_column ∧
        m1.sent = m.sent) := by
  constructor
  · intro row names hl
    refine ⟨_, step_insert_ok D m e row names hI hl, rfl, ?_, rfl⟩
    rw [columnsLoop_names D _ _ _ _ _ hl]
    rfl
  · intro p hl
    exact ⟨_, step_insert_panic D m e p hI hl, columnsLoop_panic D _ _ _ p hl, rfl, rfl, rfl⟩

/-- Instance of the amended C4: the insert with column `name` after the insert
with column `id`. -/
theorem insert_ignores_established_columns_witness :
    insertName.Action = "I" ∧
    ∃ m1, step textDeps afterInsertId insertName = .ok m1 ∧
      m1.vars.column_values = afterInsertId.vars.column_values ++ [[.text "a"]] ∧
      m1.vars.txn_row_column =
        ",".intercalate (insertName.Message.Columns.map (fun c => c.Name)) ∧
      m1.sent = afterInsertId.sent :=
  ⟨rfl, (insert_ignores_established_columns textDeps afterInsertId insertName rfl).1
    [.text "a"] ["name"] rfl⟩

/-- C5 (counterexample): after `Begin` and an insert into `s.t`, an insert into
`s.u` is not rejected: the step succeeds, the table becomes `u` and the row is
appended to the row of `s.t`. -/
theorem table_mismatch_not_rejected :
    afterInsertId.vars.schema_name = "s" ∧ afterInsertId.vars.table_name = "t" ∧
    ∃ m2, step textDeps afterInsertId insertOtherTable = .ok m2 ∧
      m2.vars.table_name = "u" ∧
      m2.vars.column_values = [[.int32 1], [.int32 2]] :=
  ⟨by decide, by decide, _, rfl, by decide, by decide⟩

/-- C5 (amended): an insert is never rejected for its schema or table. The
variables `schema_name` and `table_name` become those of the insert being
processed (they are assigned before the column loop), and if the column loop
ends without panic the step succeeds with the row appended after the rows
buffered before. -/
theorem insert_overwrites_schema_table {τ : Type} (D : Deps τ) (m : Machine τ) (e : Stmt)
    (hI : e.Action = "I") :
    (step D m e).machine.vars.schema_name = e.Message.Schema ∧
    (step D m e).machine.vars.table_name = e.Message.Table ∧
    ∀ row, Accepts D e row →
      ∃ m1, step D m e = .ok m1 ∧ m1.vars.column_values = m.vars.column_values ++ [row] := by
  refine ⟨?_, ?_, ?_⟩
  · cases hl : columnsLoop D e.Message.Columns [] [] with
    | error p => rw [step_insert_panic D m e p hI hl]; rfl
    | ok res => rw [step_insert_ok D m e res.1 res.2 hI hl]; rfl
  · cases hl : columnsLoop D e.Message.Columns [] [] with
    | error p => rw [step_insert_panic D m e p hI hl]; rfl
    | ok res => rw [step_insert_ok D m e res.1 res.2 hI hl]; rfl
  · rintro row ⟨names, hl⟩
    exact ⟨_, step_insert_ok D m e row names hI hl, rfl⟩

/-- Instance of the amended C5: the insert into `s.u` after the insert into
`s.t`. -/
theorem insert_overwrites_schema_table_witness :
    insertOtherTable.Action = "I" ∧
    (step textDeps afterInsertId insertOtherTable).machine.vars.schema_name = "s" ∧
    (step textDeps afterInsertId insertOtherTable).machine.vars.table_name = "u" :=
  ⟨rfl,
    (insert_overwrites_schema_table textDeps afterInsertId insertOtherTable rfl).1,
    (insert_overwrites_schema_table textDeps afterInsertId insertOtherTable rfl).2.1⟩

/-- C6 (evaluation of the code): for an insert with the columns `id` (type
`bigint`) and `ok` (type `boolean`) the step succeeds, two column names are
recorded, but the appended row has the single value `true`: the row is shorter
than the column list and its value at position 0 comes from column 1. -/
theorem unmatched_type_shortens_row {τ : Type} (D : Deps τ) :
    ∃ m1, step D Machine.init insertBigint = .ok m1 ∧
      m1.vars.column_values = [[.bool true]] ∧
      m1.vars.txn_row_column = "id,ok" ∧
      insertBigint.Message.Columns.length = 2 := by
  have hl : columnsLoop D insertBigint.Message.Columns [] [] = .ok ([.bool true], ["id", "ok"]) := by
    simp [insertBigint, mkInsert, columnsLoop, coerce, assertBool, Except.map]
  exact ⟨_, step_insert_ok D _ _ _ _ rfl hl, rfl, rfl, rfl⟩

/-- C7 (evaluation of the code): a string-valued column with the type tag
`public.my_enum`, `bigint` or `uuid` matches no case of the type switch: no
value is produced for it, and an insert made of such a column appends the empty
row. -/
theorem unlisted_type_yields_no_value {τ : Type} (D : Deps τ) :
    coerce D ⟨"kind", "public.my_enum", .string "a"⟩ = .ok none ∧
    coerce D ⟨"n", "bigint", .string "1"⟩ = .ok none ∧
    coerce D ⟨"u", "uuid", .string "x"⟩ = .ok none ∧
    ∃ m1, step D Machine.init insertEnum = .ok m1 ∧ m1.vars.column_values = [[]] := by
  have h1 : coerce D ⟨"kind", "public.my_enum", .string "a"⟩ = .ok none := by
    simp [coerce]
  have hl : columnsLoop D insertEnum.Message.Columns [] [] = .ok ([], ["kind"]) := by
    simp [insertEnum, mkInsert, columnsLoop, h1]
  refine ⟨h1, by simp [coerce], by simp [coerce], _, step_insert_ok D _ _ _ _ rfl hl, rfl⟩

theorem run_dropKeepalives {τ : Type} (D : Deps τ) :
    ∀ (evs : List Stmt) (m : Machine τ), run D m (dropKeepalives evs) = run D m evs
  | [], _ => rfl
  | e :: es, m => by
    by_cases hK : e.Action = "K"
    · have hd : dropKeepalives (e :: es) = dropKeepalives es := by
        simp [dropKeepalives, hK]
      rw [hd, run_cons_ok D e es m m (step_keepalive D m e hK)]
      exact run_dropKeepalives D es m
    · have hd : dropKeepalives (e :: es) = e :: dropKeepalives es := by
        simp [dropKeepalives, hK]
      rw [hd]
      simp only [run]
      cases step D m e with
      | error x => rfl
      | ok m1 => exact run_dropKeepalives D es m1

/-- C8: a keepalive line leaves the machine as it is (every variable, and the
list of calls to `Exec`); hence two streams that differ only by keepalive
lines, inserted or deleted at any positions, have the same outcome: the same
calls to `Exec`, with the same texts and arguments. -/
theorem keepalive_is_noop {τ : Type} (D : Deps τ) :
    (∀ (m : Machine τ) (k : Stmt), k.Action = "K" → step D m k = .ok m) ∧
    (∀ (m : Machine τ) (evs1 evs2 : List Stmt),
      dropKeepalives evs1 = dropKeepalives evs2 → run D m evs1 = run D m evs2) := by
  refine ⟨fun m k hk => step_keepalive D m k hk, ?_⟩
  intro m evs1 evs2 h
  rw [← run_dropKeepalives D evs1, ← run_dropKeepalives D evs2, h]

/-- Instance of C8: a keepalive step, and two streams that differ by keepalives. -/
theorem keepalive_is_noop_witness :
    (mkStmt "K").Action = "K" ∧
    step textDeps afterInsertId (mkStmt "K") = .ok afterInsertId ∧
    dropKeepalives [mkStmt "B", mkStmt "K", insertId, mkStmt "K", mkStmt "C"] =
      dropKeepalives [mkStmt "B", insertId, mkStmt "C", mkStmt "K"] ∧
    run textDeps Machine.init [mkStmt "B", mkStmt "K", insertId, mkStmt "K", mkStmt "C"] =
      run textDeps Machine.init [mkStmt "B", insertId, mkStmt "C", mkStmt "K"] :=
  ⟨rfl, (keepalive_is_noop textDeps).1 afterInsertId (mkStmt "K") rfl, rfl,
    (keepalive_is_noop textDeps).2 Machine.init _ _ rfl⟩

/-- C9: a Begin line clears the buffer (schema, table, column list, column
map and rows) and calls no `Exec`; hence in `Begin, Insert_1 .. Insert_a, Begin,
Insert'_1 .. Insert'_b, Commit`, all inserts being accepted, the one call to
`Exec` made at the Commit has as arguments exactly the rows of the `b` inserts
that follow the second Begin. -/
theorem begin_discards_buffer {τ : Type} (D : Deps τ) :
    (∀ (m : Machine τ) (b : Stmt), b.Action = "B" →
      ∃ m1, step D m b = .ok m1 ∧ m1.vars.schema_name = "" ∧ m1.vars.table_name = "" ∧
        m1.vars.txn_row_column = "" ∧ m1.vars.column_name = [] ∧
        m1.vars.column_values = [] ∧ m1.sent = m.sent) ∧
    (∀ (m : Machine τ) (b1 b2 c : Stmt) (ins1 ins2 : List Stmt)
        (rows1 rows2 : List (List (TypedValue τ))),
      b1.Action = "B" → b2.Action = "B" → c.Action = "C" →
      (∀ e ∈ ins1, e.Action = "I") → (∀ e ∈ ins2, e.Action = "I") →
      List.Forall₂ (Accepts D) ins1 rows1 → List.Forall₂ (Accepts D) ins2 rows2 →
      ∃ q, (run D m (b1 :: ins1 ++ b2 :: ins2 ++ [c])).sent =
        m.sent ++ [⟨q, rows2.flatten⟩]) := by
  constructor
  · intro m b hb
    exact ⟨_, step_begin D m b hb, rfl, rfl, rfl, rfl, rfl, rfl⟩
  · intro m b1 b2 c ins1 ins2 rows1 rows2 hb1 hb2 hc hi1 hi2 hr1 hr2
    have hbody1 : ∀ e ∈ ins1, e.Action = "K" ∨ e.Action = "I" := fun e he => Or.inr (hi1 e he)
    have hbody2 : ∀ e ∈ ins2, e.Action = "K" ∨ e.Action = "I" := fun e he => Or.inr (hi2 e he)
    rw [← inserts_eq_self ins1 hi1] at hr1
    rw [← inserts_eq_self ins2 hi2] at hr2
    obtain ⟨m1, h1, h2, _, _⟩ :=
      run_body D ins1 { m with vars := refresh m.vars } rows1 hbody1 hr1
    obtain ⟨q, hq⟩ := run_transaction D m1 b2 c ins2 rows2 hb2 hc hbody2 hr2
    refine ⟨q, ?_⟩
    have hlist : b1 :: ins1 ++ b2 :: ins2 ++ [c] = b1 :: (ins1 ++ (b2 :: ins2 ++ [c])) := by
      simp
    rw [hlist, run_cons_ok D b1 _ m _ (step_begin D m b1 hb1), run_append_ok D ins1 _ _ m1 h1,
      hq, h2]

/-- Instance of C9: `Begin, insertId, Begin, insertName, Commit` sends the row of
`insertName` only. -/
theorem begin_discards_buffer_witness :
    (mkStmt "B").Action = "B" ∧ (mkStmt "C").Action = "C" ∧
    (∀ e ∈ [insertId], e.Action = "I") ∧ (∀ e ∈ [insertName], e.Action = "I") ∧
    ∃ q, (run textDeps Machine.init
        (mkStmt "B" :: [insertId] ++ mkStmt "B" :: [insertName] ++ [mkStmt "C"])).sent =
      (Machine.init : Machine String).sent ++ [⟨q, [[TypedValue.text "a"]].flatten⟩] :=
  ⟨rfl, rfl, by decide, by decide,
    (begin_discards_buffer textDeps).2 Machine.init (mkStmt "B") (mkStmt "B") (mkStmt "C")
      [insertId] [insertName] [[.int32 1]] [[.text "a"]] rfl rfl rfl (by decide) (by decide)
      (List.Forall₂.cons ⟨["id"], rfl⟩ List.Forall₂.nil)
      (List.Forall₂.cons ⟨["name"], rfl⟩ List.Forall₂.nil)⟩

/-- C10: a Commit whose `Exec` succeeds leaves every buffer variable empty
(schema and table empty, no column names, zero rows), whether or not rows were
buffered. Hence, over any stream, the argument lists of the calls to `Exec` are
the flattenings of lists of rows which, taken together and in order, are
obtained from the rows buffered at the start followed by the rows of the insert
lines by deleting rows: every insert row goes to at most one call. And a Commit
directly after a successful Commit sends no argument at all. -/
theorem commit_resets_buffer {τ : Type} (D : Deps τ) :
    (∀ (m : Machine τ) (c : Stmt), c.Action = "C" →
      D.exec m.sent (buildWrite D m.vars) = true →
      ∃ m1, step D m c = .ok m1 ∧ m1.vars.schema_name = "" ∧ m1.vars.table_name = "" ∧
        m1.vars.txn_row_column = "" ∧ m1.vars.column_name = [] ∧
        m1.vars.column_values = [] ∧ m1.sent = m.sent ++ [buildWrite D m.vars]) ∧
    (∀ (m : Machine τ) (evs : List Stmt),
      ∃ (ws : List (Write τ)) (segs : List (List (List (TypedValue τ)))),
        (run D m evs).sent = m.sent ++ ws ∧
        ws.map (fun w => w.args) = segs.map List.flatten ∧
        List.Sublist segs.flatten (m.vars.column_values ++ insertRows D evs)) ∧
    (∀ (m m1 : Machine τ) (c1 c2 : Stmt), c1.Action = "C" → c2.Action = "C" →
      step D m c1 = .ok m1 →
      ∃ q, (step D m1 c2).sent = m.sent ++ [buildWrite D m.vars] ++ [⟨q, []⟩]) := by
  refine ⟨?_, fun m evs => run_sent_sublist D evs m, ?_⟩
  · intro m c hc hx
    refine ⟨{ vars := refresh { m.vars with txnCount := m.vars.txnCount + 1 },
              sent := m.sent ++ [buildWrite D m.vars] }, ?_, rfl, rfl, rfl, rfl, rfl, rfl⟩
    rw [step_commit D m c hc, hx]
    rfl
  · intro m m1 c1 c2 hc1 hc2 hs
    rw [step_commit D m c1 hc1] at hs
    split at hs
    · cases hs
      refine ⟨(buildWrite D (refresh { m.vars with txnCount := m.vars.txnCount + 1 })).query, ?_⟩
      rw [step_commit_sent D _ c2 hc2]
      rfl
    · cases hs

/-- Instance of C10: a successful Commit after `Begin` and one insert. -/
theorem commit_resets_buffer_witness :
    (mkStmt "C").Action = "C" ∧
    textDeps.exec afterInsertId.sent (buildWrite textDeps afterInsertId.vars) = true ∧
    ∃ m1, step textDeps afterInsertId (mkStmt "C") = .ok m1 ∧ m1.vars.schema_name = "" ∧
      m1.vars.table_name = "" ∧ m1.vars.txn_row_column = "" ∧ m1.vars.column_name = [] ∧
      m1.vars.column_values = [] ∧
      m1.sent = afterInsertId.sent ++ [buildWrite textDeps afterInsertId.vars] :=
  ⟨rfl, rfl, (commit_resets_buffer textDeps).1 afterInsertId (mkStmt "C") rfl rfl⟩


/-! ## Coercion of scalars -/

theorem toInt32_intCast {τ : Type} (D : Deps τ) (n : Int)
    (h1 : -2147483648 ≤ n) (h2 : n ≤ 2147483647) : toInt32 D (n : ℚ) = n := by
  simp [toInt32, h1, h2]

theorem tdiv_eq_truncToZero (x : ℚ) : x.num.tdiv (x.den : Int) = truncToZero x := by
  unfold truncToZero
  split
  · rename_i h
    have hn : 0 ≤ x.num := Rat.num_nonneg.mpr h
    rw [Int.tdiv_eq_ediv hn (Int.ofNat_nonneg _), Rat.floor_def]
  · rename_i h
    have hn : x.num < 0 := Rat.num_neg.mpr (not_le.mp h)
    have hc : ⌈x⌉ = -⌊-x⌋ := by rw [Int.floor_neg, neg_neg]
    rw [hc, Rat.floor_def, Rat.neg_num, Rat.neg_den,
      ← Int.tdiv_eq_ediv (by omega) (Int.ofNat_nonneg _), Int.neg_tdiv, neg_neg]

theorem truncToZero_range (x : ℚ) (h1 : -2147483648 < x) (h2 : x < 2147483648) :
    -2147483648 ≤ truncToZero x ∧ truncToZero x ≤ 2147483647 := by
  unfold truncToZero
  split
  · rename_i h
    have hf : (0 : Int) ≤ ⌊x⌋ := Int.floor_nonneg.mpr h
    have hlt : ⌊x⌋ < 2147483648 := by
      rw [Int.floor_lt]
      exact_mod_cast h2
    omega
  · rename_i h
    have hx : x ≤ 0 := le_of_lt (not_le.mp h)
    have hc : ⌈x⌉ ≤ 0 := by
      rw [Int.ceil_le]
      exact_mod_cast hx
    have hgt : -2147483648 < ⌈x⌉ := by
      rw [Int.lt_ceil]
      exact_mod_cast h1
    omega

theorem coerce_integer {τ : Type} (D : Deps τ) (name : String) (x : ℚ) :
    coerce D ⟨name, "integer", .number x⟩ = .ok (some (.int32 (toInt32 D x))) := by
  simp [coerce, assertFloat64, Except.map]

theorem columnsLoop_error_of_mem {τ : Type} (D : Deps τ) (col : Column) (q : Panic)
    (hq : coerce D col = .error q) :
    ∀ (cs : List Column) (row : List (TypedValue τ)) (rc : List String), col ∈ cs →
      ∃ p, columnsLoop D cs row rc = .error p
  | [], _, _, h => by simp at h
  | c :: cs, row, rc, h => by
    rw [columnsLoop]
    cases hc : coerce D c with
    | error p => exact ⟨p, rfl⟩
    | ok o =>
      have hmem : col ∈ cs := by
        rcases List.mem_cons.mp h with rfl | h1
        · rw [hq] at hc; cases hc
        · exact h1
      cases o with
      | none => exact columnsLoop_error_of_mem D col q hq cs _ _ hmem
      | some v => exact columnsLoop_error_of_mem D col q hq cs _ _ hmem

theorem scanWith_not_string {τ : Type} (scan : String → Option τ) (wrap : τ → TypedValue τ)
    (v : JValue) (h : v.isString = false) : scanWith scan wrap v = .error .typeAssertion := by
  cases v <;> simp [JValue.isString] at h <;> rfl

theorem coerce_shapeMismatch {τ : Type} (D : Deps τ) (c : Column)
    (h : shapeMismatch c = true) : coerce D c = .error .typeAssertion := by
  obtain ⟨name, t, v⟩ := c
  simp only [shapeMismatch, expectsNumber, expectsBool, expectsString, Bool.or_eq_true,
    Bool.and_eq_true, decide_eq_true_eq, Bool.not_eq_true'] at h
  unfold coerce
  simp only
  rcases h with (⟨ht | ht, hv⟩ | ⟨ht, hv⟩) | ⟨ht, hv⟩
  · subst ht
    cases v <;> simp [JValue.isNumber] at hv <;> simp [assertFloat64, Except.map]
  · subst ht
    cases v <;> simp [JValue.isNumber] at hv <;> simp [assertFloat64, Except.map]
  · subst ht
    cases v <;> simp [JValue.isBool] at hv <;> simp [assertBool, Except.map]
  · have hs := fun (scan : String → Option τ) wrap => scanWith_not_string scan wrap v hv
    by_cases h1 : t = "integer"
    · subst h1; simp at ht
    by_cases h2 : t = "double precision"
    · subst h2; simp at ht
    by_cases h3 : t = "boolean"
    · subst h3; simp at ht
    rw [if_neg h1, if_neg h2, if_neg h3]
    split
    · exact hs _ _
    split
    · exact hs _ _
    split
    · exact hs _ _
    split
    · exact hs _ _
    split
    · exact hs _ _
    split
    · exact hs _ _
    split
    · exact hs _ _
    · rename_i n1 n2 n3 n4 n5 n6 n7
      simp only [n1, n2, n4, n5, n6, n7, false_or, or_false] at ht
      exact absurd ht n3

/-- C11: coercion keeps matching scalars. An integer `n` of the `int32` range
carried as a number is coerced by the `integer` case to the 32-bit integer `n`
(42.0 gives 42); the `double precision` case yields the number itself, the
`boolean` case the boolean itself; and the `text` case yields the value that
`pgtype.Text.Scan` makes of the string, which (the scanner producing a present
text holding the scanned string) is present with content exactly `s`. -/
theorem coerce_roundtrips_scalars {τ : Type} (D : Deps τ) (content : τ → Option String)
    (name : String) (hText : ∀ s, ∃ t, D.scanText s = some t ∧ content t = some s) :
    (∀ n : Int, -2147483648 ≤ n → n ≤ 2147483647 →
      coerce D ⟨name, "integer", .number (n : ℚ)⟩ = .ok (some (.int32 n))) ∧
    coerce D ⟨name, "integer", .number 42⟩ = .ok (some (.int32 42)) ∧
    (∀ x : ℚ, coerce D ⟨name, "double precision", .number x⟩ = .ok (some (.float64 x))) ∧
    (∀ b : Bool, coerce D ⟨name, "boolean", .bool b⟩ = .ok (some (.bool b))) ∧
    (∀ s : String, ∃ t, coerce D ⟨name, "text", .string s⟩ = .ok (some (.text t)) ∧
      content t = some s) := by
  refine ⟨?_, ?_, ?_, ?_, ?_⟩
  · intro n h1 h2
    rw [coerce_integer, toInt32_intCast D n h1 h2]
  · have h := toInt32_intCast D 42 (by decide) (by decide)
    rw [coerce_integer]
    simpa using h
  · intro x
    simp [coerce, assertFloat64, Except.map]
  · intro b
    simp [coerce, assertBool, Except.map]
  · intro s
    obtain ⟨t, ht, hc⟩ := hText s
    exact ⟨t, by simp [coerce, scanWith, assertString, ht], hc⟩

/-- Instance of C11 with scanners that keep the scanned string. -/
theorem coerce_roundtrips_scalars_witness :
    (∀ s, ∃ t, textDeps.scanText s = some t ∧ some t = some s) ∧
    (-2147483648 : Int) ≤ 7 ∧ (7 : Int) ≤ 2147483647 ∧
    coerce textDeps ⟨"id", "integer", .number ((7 : Int) : ℚ)⟩ = .ok (some (.int32 7)) ∧
    ∃ t, coerce textDeps ⟨"id", "text", .string "hello"⟩ = .ok (some (.text t)) ∧
      some t = some "hello" :=
  ⟨fun s => ⟨s, rfl, rfl⟩, by decide, by decide,
    (coerce_roundtrips_scalars textDeps some "id" (fun s => ⟨s, rfl, rfl⟩)).1 7
      (by decide) (by decide),
    (coerce_roundtrips_scalars textDeps some "id" (fun s => ⟨s, rfl, rfl⟩)).2.2.2.2 "hello"⟩

/-- C12: an insert containing a column whose type tag is matched by the switch
and whose raw value has another dynamic type than the case asserts fails: the
type assertion of that column panics, the step ends in a panic, no row is
appended to the buffered rows and no call to `Exec` is made, for this line or
any later one. -/
theorem shape_mismatch_fails {τ : Type} (D : Deps τ) (m : Machine τ) (e : Stmt) (col : Column)
    (hI : e.Action = "I") (hmem : col ∈ e.Message.Columns) (hbad : shapeMismatch col = true) :
    coerce D col = .error .typeAssertion ∧
    (∃ p m1, step D m e = .error (p, m1) ∧ m1.vars.column_values = m.vars.column_values ∧
      m1.sent = m.sent) ∧
    ∀ rest, (run D m (e :: rest)).sent = m.sent := by
  have hc := coerce_shapeMismatch D col hbad
  obtain ⟨p, hp⟩ := columnsLoop_error_of_mem D col _ hc e.Message.Columns [] [] hmem
  have hs := step_insert_panic D m e p hI hp
  refine ⟨hc, ⟨p, _, hs, rfl, rfl⟩, ?_⟩
  intro rest
  simp [run, hs, Outcome.sent, Outcome.machine]

/-- Instance of C12: the column `id` of type `integer` carries the string `"1"`. -/
theorem shape_mismatch_fails_witness :
    insertBadShape.Action = "I" ∧
    shapeMismatch ⟨"id", "integer", .string "1"⟩ = true ∧
    ∃ p m1, step textDeps afterInsertId insertBadShape = .error (p, m1) ∧
      m1.vars.column_values = afterInsertId.vars.column_values ∧
      m1.sent = afterInsertId.sent :=
  ⟨rfl, by decide,
    (shape_mismatch_fails textDeps afterInsertId insertBadShape ⟨"id", "integer", .string "1"⟩
      rfl (by simp [insertBadShape, mkInsert]) (by decide)).2.1⟩

/-- C19: the `integer` case does not reject a number with a fraction: for every
number `x` with `-2^31 < x < 2^31` the coercion succeeds and yields the 32-bit
integer obtained by truncating `x` toward zero; 3.9 gives 3 and -3.9 gives -3. -/
theorem integer_coercion_truncates {τ : Type} (D : Deps τ) (name : String) (x : ℚ)
    (h1 : -2147483648 < x) (h2 : x < 2147483648) :
    coerce D ⟨name, "integer", .number x⟩ = .ok (some (.int32 (truncToZero x))) ∧
    -2147483648 ≤ truncToZero x ∧ truncToZero x ≤ 2147483647 ∧
    coerce D ⟨name, "integer", .number (39 / 10)⟩ = .ok (some (.int32 3)) ∧
    coerce D ⟨name, "integer", .number (-39 / 10)⟩ = .ok (some (.int32 (-3))) := by
  have hr := truncToZero_range x h1 h2
  have key : ∀ y : ℚ, -2147483648 < y → y < 2147483648 →
      coerce D ⟨name, "integer", .number y⟩ = .ok (some (.int32 (truncToZero y))) := by
    intro y hy1 hy2
    have hry := truncToZero_range y hy1 hy2
    rw [coerce_integer]
    simp only [toInt32, tdiv_eq_truncToZero, hry.1, hry.2, and_self, if_true]
  have t1 : truncToZero (39 / 10) = 3 := by
    simp only [truncToZero]
    norm_num [Int.floor_eq_iff]
  have t2 : truncToZero (-39 / 10) = -3 := by
    simp only [truncToZero]
    norm_num [Int.ceil_eq_iff]
  refine ⟨key x h1 h2, hr.1, hr.2, ?_, ?_⟩
  · rw [key _ (by norm_num) (by norm_num), t1]
  · rw [key _ (by norm_num) (by norm_num), t2]

/-- Instance of C19 at 5/2. -/
theorem integer_coercion_truncates_witness :
    (-2147483648 : ℚ) < 5 / 2 ∧ (5 / 2 : ℚ) < 2147483648 ∧
    coerce textDeps ⟨"id", "integer", .number (5 / 2)⟩ =
      .ok (some (.int32 (truncToZero (5 / 2)))) :=
  ⟨by norm_num, by norm_num,
    (integer_coercion_truncates textDeps "id" (5 / 2) (by norm_num) (by norm_num)).1⟩

/-! ## Begin at an idle point, and unknown actions -/

theorem run_dropUnknown {τ : Type} (D : Deps τ) :
    ∀ (evs : List Stmt) (m : Machine τ), run D m (dropUnknown evs) = run D m evs
  | [], _ => rfl
  | e :: es, m => by
    by_cases hk : knownAction e.Action = true
    · have hd : dropUnknown (e :: es) = e :: dropUnknown es := by
        simp [dropUnknown, hk]
      rw [hd]
      simp only [run]
      cases step D m e with
      | error x => rfl
      | ok m1 => exact run_dropUnknown D es m1
    · have hd : dropUnknown (e :: es) = dropUnknown es := by
        simp [dropUnknown, hk]
      have hs : step D m e = .ok m := by
        simp only [knownAction, Bool.or_eq_true, decide_eq_true_eq, not_or] at hk
        exact step_other D m e hk.1.1.1 hk.1.1.2 hk.1.2
      rw [hd, run_cons_ok D e es m m hs]
      exact run_dropUnknown D es m

/-- C14: at an idle point the buffer is empty, so a Begin there changes nothing
and an insert there adopts its own schema, table and columns. The machine at
the start of the stream and the machine after a successful Commit have an empty
buffer; an accepted insert on an empty buffer leaves its own schema, table and
column list and its row alone in the buffer; and a Begin line put at the very
start of a stream, or directly after a Commit, does not change the outcome of
the stream (the same calls to `Exec`, with the same texts and arguments). -/
theorem begin_at_idle_is_noop {τ : Type} (D : Deps τ) :
    ((Machine.init : Machine τ).vars = refresh (Machine.init : Machine τ).vars) ∧
    (∀ (m m1 : Machine τ) (c : Stmt), c.Action = "C" → step D m c = .ok m1 →
      m1.vars = refresh m1.vars) ∧
    (∀ (m : Machine τ) (e : Stmt) (row : List (TypedValue τ)) (names : List String),
      e.Action = "I" → m.vars = refresh m.vars →
      columnsLoop D e.Message.Columns [] [] = .ok (row, names) →
      ∃ m1, step D m e = .ok m1 ∧ m1.vars.schema_name = e.Message.Schema ∧
        m1.vars.table_name = e.Message.Table ∧
        m1.vars.txn_row_column = ",".intercalate (e.Message.Columns.map (fun c => c.Name)) ∧
        m1.vars.column_values = [row]) ∧
    (∀ (b : Stmt) (evs : List Stmt), b.Action = "B" →
      run D Machine.init (b :: evs) = run D Machine.init evs) ∧
    (∀ (m : Machine τ) (pre post : List Stmt) (c b : Stmt), c.Action = "C" → b.Action = "B" →
      run D m (pre ++ c :: b :: post) = run D m (pre ++ c :: post)) := by
  refine ⟨rfl, ?_, ?_, ?_, ?_⟩
  · intro m m1 c hc hs
    rw [step_commit D m c hc] at hs
    split at hs
    · cases hs; rfl
    · cases hs
  · intro m e row names hI hidle hl
    refine ⟨_, step_insert_ok D m e row names hI hl, rfl, rfl, ?_, ?_⟩
    · rw [columnsLoop_names D _ _ _ _ _ hl]
      rfl
    · show m.vars.column_values ++ [row] = [row]
      rw [hidle]
      rfl
  · intro b evs hb
    rw [run_cons_ok D b evs _ _ (step_begin D _ b hb)]
    rfl
  · intro m pre post c b hc hb
    rw [run_append, run_append]
    cases run D m pre with
    | error x => rfl
    | ok m1 =>
      simp only
      cases hx : D.exec m1.sent (buildWrite D m1.vars) with
      | false =>
        have hs : step D m1 c =
            .error (.execError, { m1 with sent := m1.sent ++ [buildWrite D m1.vars] }) := by
          rw [step_commit D m1 c hc, hx]; rfl
        simp only [run, hs]
      | true =>
        have hs : step D m1 c = .ok
            { vars := refresh { m1.vars with txnCount := m1.vars.txnCount + 1 },
              sent := m1.sent ++ [buildWrite D m1.vars] } := by
          rw [step_commit D m1 c hc, hx]; rfl
        rw [run_cons_ok D c _ _ _ hs, run_cons_ok D c _ _ _ hs,
          run_cons_ok D b post _ _ (step_begin D _ b hb)]
        rfl

/-- Instance of C14: a Begin before the first line and one after the Commit. -/
theorem begin_at_idle_is_noop_witness :
    (mkStmt "B").Action = "B" ∧ (mkStmt "C").Action = "C" ∧
    run textDeps Machine.init (mkStmt "B" :: [insertId, mkStmt "C", insertName, mkStmt "C"]) =
      run textDeps Machine.init [insertId, mkStmt "C", insertName, mkStmt "C"] ∧
    run textDeps Machine.init ([insertId] ++ mkStmt "C" :: mkStmt "B" :: [insertName, mkStmt "C"]) =
      run textDeps Machine.init ([insertId] ++ mkStmt "C" :: [insertName, mkStmt "C"]) :=
  ⟨rfl, rfl,
    (begin_at_idle_is_noop textDeps).2.2.2.1 (mkStmt "B") _ rfl,
    (begin_at_idle_is_noop textDeps).2.2.2.2 Machine.init [insertId] [insertName, mkStmt "C"]
      (mkStmt "C") (mkStmt "B") rfl rfl⟩

/-- C18: a line whose action is none of `"B"`, `"I"`, `"C"`, `"K"` leaves the
machine as it is (every variable and the list of calls to `Exec`) and raises no
panic; hence removing all such lines from a stream does not change its
outcome. -/
theorem unknown_action_is_skipped {τ : Type} (D : Deps τ) :
    (∀ (m : Machine τ) (e : Stmt), knownAction e.Action = false → step D m e = .ok m) ∧
    (∀ (m : Machine τ) (evs : List Stmt), run D m (dropUnknown evs) = run D m evs) := by
  refine ⟨?_, fun m evs => run_dropUnknown D evs m⟩
  intro m e hk
  simp only [knownAction, Bool.or_eq_false_iff, decide_eq_false_iff_not] at hk
  exact step_other D m e hk.1.1.1 hk.1.1.2 hk.1.2

/-- Instance of C18: lines with the actions `"U"`, `"D"`, `"T"` and `""`. -/
theorem unknown_action_is_skipped_witness :
    knownAction (mkStmt "U").Action = false ∧
    step textDeps afterInsertId (mkStmt "U") = .ok afterInsertId ∧
    step textDeps afterInsertId (mkStmt "") = .ok afterInsertId ∧
    run textDeps Machine.init
        (dropUnknown [mkStmt "B", mkStmt "U", insertId, mkStmt "D", mkStmt "T", mkStmt "C"]) =
      run textDeps Machine.init
        [mkStmt "B", mkStmt "U", insertId, mkStmt "D", mkStmt "T", mkStmt "C"] :=
  ⟨by decide, (unknown_action_is_skipped textDeps).1 afterInsertId (mkStmt "U") (by decide),
    (unknown_action_is_skipped textDeps).1 afterInsertId (mkStmt "") (by decide),
    (unknown_action_is_skipped textDeps).2 Machine.init _⟩

/-! ## Identity of the statement: last insert, verbatim column names -/

theorem rowsLoop_query_prefix {τ : Type} (n : Nat) :
    ∀ (rs : List (List (TypedValue τ))) (i : Nat) (b : Builder τ),
      ∃ s, (rowsLoop n i rs b).query = b.query ++ s
  | [], _, b => ⟨"", by simp [rowsLoop]⟩
  | r :: rs, i, b => by
    rw [rowsLoop]
    simp only [tupleLoop_row]
    split
    · obtain ⟨s, hs⟩ := rowsLoop_query_prefix n rs (i + 1)
        { query := b.query ++ " ( " ++ ", ".intercalate
            ((List.range r.length).map (fun k => "$" ++ toString (b.counter + k))) ++ " ) " ++ ",",
          counter := b.counter + r.length, val := b.val ++ r }
      exact ⟨_, by rw [hs]; simp only [String.append_assoc]; rfl⟩
    · obtain ⟨s, hs⟩ := rowsLoop_query_prefix n rs (i + 1)
        { query := b.query ++ " ( " ++ ", ".intercalate
            ((List.range r.length).map (fun k => "$" ++ toString (b.counter + k))) ++ " ) ",
          counter := b.counter + r.length, val := b.val ++ r }
      exact ⟨_, by rw [hs]; simp only [String.append_assoc]; rfl⟩

theorem buildWrite_prefix {τ : Type} (D : Deps τ) (v : Vars τ) :
    ∃ rest, buildWrite D v = ⟨header D v ++ rest, v.column_values.flatten⟩ := by
  obtain ⟨s, hs⟩ := rowsLoop_query_prefix v.column_values.length v.column_values 0
    { query := header D v, counter := 1, val := [] }
  refine ⟨s, ?_⟩
  have h : buildWrite D v = ⟨(buildWrite D v).query, (buildWrite D v).args⟩ := rfl
  rw [h, buildWrite_args]
  simp only [buildWrite, hs]

theorem run_body_last {τ : Type} (D : Deps τ) :
    ∀ (body : List Stmt) (m : Machine τ) (rows : List (List (TypedValue τ))),
      (∀ e ∈ body, e.Action = "K" ∨ e.Action = "I") →
      List.Forall₂ (Accepts D) (inserts body) rows →
      ∃ m1, run D m body = .ok m1 ∧ m1.sent = m.sent ∧
        m1.vars.column_values = m.vars.column_values ++ rows ∧
        (inserts body = [] → m1.vars = m.vars) ∧
        ∀ e, (inserts body).getLast? = some e →
          m1.vars.schema_name = e.Message.Schema ∧ m1.vars.table_name = e.Message.Table ∧
          m1.vars.txn_row_column = ",".intercalate (e.Message.Columns.map (fun c => c.Name))
  | [], m, rows, _, hr => by
    cases hr
    exact ⟨m, rfl, rfl, by simp, fun _ => rfl, by simp [inserts]⟩
  | e0 :: es, m, rows, hb, hr => by
    have hes : ∀ x ∈ es, x.Action = "K" ∨ x.Action = "I" :=
      fun x hx => hb x (List.mem_cons_of_mem _ hx)
    rcases hb e0 (List.mem_cons_self _ _) with hK | hI
    · have hne : e0.Action ≠ "I" := by rw [hK]; decide
      rw [inserts_cons_other e0 es hne] at hr ⊢
      obtain ⟨m1, h1, h2, h3, h4, h5⟩ := run_body_last D es m rows hes hr
      exact ⟨m1, by rw [run_cons_ok D e0 es m m (step_keepalive D m e0 hK), h1], h2, h3, h4, h5⟩
    · rw [inserts_cons_insert e0 es hI] at hr ⊢
      cases hr with
      | cons hacc hrest =>
        obtain ⟨names, hl⟩ := hacc
        obtain ⟨m1, h1, h2, h3, h4, h5⟩ := run_body_last D es _ _ hes hrest
        refine ⟨m1, ?_, ?_, ?_, ?_, ?_⟩
        · rw [run_cons_ok D e0 es m _ (step_insert_ok D m e0 _ names hI hl), h1]
        · rw [h2]
        · rw [h3]; simp
        · intro h; cases h
        · intro e he
          cases hins : inserts es with
          | nil =>
            rw [hins] at he
            simp only [List.getLast?_singleton, Option.some.injEq] at he
            subst he
            rw [h4 hins]
            refine ⟨rfl, rfl, ?_⟩
            rw [columnsLoop_names D _ _ _ _ _ hl]
            rfl
          | cons x xs =>
            rw [hins, List.getLast?_cons_cons] at he
            rw [hins] at h5
            exact h5 e he

theorem intercalate_contains (s : String) :
    ∀ (pre : List String) (n : String) (post : List String),
      ∃ a b, s.intercalate (pre ++ n :: post) = a ++ n ++ b
  | [], n, [] => ⟨"", "", by simp [intercalate_singleton]⟩
  | [], n, p :: post => ⟨"", s ++ s.intercalate (p :: post), by
      rw [List.nil_append, intercalate_cons_of_ne_nil s n (p :: post) (by simp)]
      simp⟩
  | p :: pre, n, post => by
    obtain ⟨a, b, h⟩ := intercalate_contains s pre n post
    refine ⟨p ++ (s ++ a), b, ?_⟩
    rw [List.cons_append, intercalate_cons_of_ne_nil s p _ (by simp), h]
    simp only [String.append_assoc]

/-- C16: the last insert gives the statement its identity. After a Begin, for
inserts (keepalives in between) that are all accepted, the statement sent at the
Commit targets the schema and table of the most recent insert and lists the
column names of the most recent insert joined by `","`, while its arguments are
the rows of all the inserts in order. In particular an insert into `s.t`
followed by one into `s.u`, or by one with another column, is written under the
table and column list of the second. -/
theorem last_insert_names_statement {τ : Type} (D : Deps τ) (m : Machine τ) (b c e : Stmt)
    (body : List Stmt) (rows : List (List (TypedValue τ)))
    (hb : b.Action = "B") (hc : c.Action = "C")
    (hbody : ∀ x ∈ body, x.Action = "K" ∨ x.Action = "I")
    (hrows : List.Forall₂ (Accepts D) (inserts body) rows)
    (hlast : (inserts body).getLast? = some e) :
    (∃ rest, (run D m (b :: body ++ [c])).sent = m.sent ++
      [⟨"insert into " ++ D.sanitize e.Message.Schema e.Message.Table ++ " (" ++
          ",".intercalate (e.Message.Columns.map (fun col => col.Name)) ++ ") values " ++ rest,
        rows.flatten⟩]) ∧
    (run textDeps Machine.init [mkStmt "B", insertId, insertOtherTable, mkStmt "C"]).sent =
      [⟨"insert into \"s\".\"u\" (id) values  ( $1 ) , ( $2 ) ", [.int32 1, .int32 2]⟩] ∧
    (run textDeps Machine.init [mkStmt "B", insertId, insertName, mkStmt "C"]).sent =
      [⟨"insert into \"s\".\"t\" (name) values  ( $1 ) , ( $2 ) ", [.int32 1, .text "a"]⟩] := by
  refine ⟨?_, by decide, by decide⟩
  obtain ⟨m1, h1, h2, h3, _, h5⟩ :=
    run_body_last D body { m with vars := refresh m.vars } rows hbody hrows
  obtain ⟨hs, ht, hn⟩ := h5 e hlast
  obtain ⟨rest, hrest⟩ := buildWrite_prefix D m1.vars
  refine ⟨rest, ?_⟩
  rw [List.cons_append, run_cons_ok D b _ m _ (step_begin D m b hb),
    run_append_ok D body [c] _ m1 h1, run_single, step_commit_sent D m1 c hc, h2, hrest,
    header, hs, ht, hn, h3]
  rfl

/-- Instance of C16: an insert into `s.t` followed by an insert into `s.u`. -/
theorem last_insert_names_statement_witness :
    (inserts [insertId, insertOtherTable]).getLast? = some insertOtherTable ∧
    ∃ rest, (run textDeps Machine.init
        (mkStmt "B" :: [insertId, insertOtherTable] ++ [mkStmt "C"])).sent =
      (Machine.init : Machine String).sent ++
      [⟨"insert into " ++
          textDeps.sanitize insertOtherTable.Message.Schema insertOtherTable.Message.Table ++
          " (" ++ ",".intercalate (insertOtherTable.Message.Columns.map (fun col => col.Name)) ++
          ") values " ++ rest,
        [[TypedValue.int32 1], [TypedValue.int32 2]].flatten⟩] :=
  ⟨rfl,
    (last_insert_names_statement textDeps Machine.init (mkStmt "B") (mkStmt "C")
      insertOtherTable [insertId, insertOtherTable] [[.int32 1], [.int32 2]] rfl rfl
      (by decide)
      (List.Forall₂.cons ⟨["id"], rfl⟩ (List.Forall₂.cons ⟨["id"], rfl⟩ List.Forall₂.nil))
      rfl).1⟩

/-- C17: column names go into the statement text verbatim. At a Commit that
follows an accepted insert, the text between the parentheses of the header is
the column names of that insert joined by `","`, each name occurring in it
unchanged, with no quoting or escaping; a name containing `"`, `)` and further
text is reproduced as it is. -/
theorem column_names_verbatim {τ : Type} (D : Deps τ) (m0 m : Machine τ) (ins c : Stmt)
    (hI : ins.Action = "I") (hstep : step D m0 ins = .ok m) (hC : c.Action = "C") :
    (∃ rest, (step D m c).sent = m.sent ++
      [⟨"insert into " ++ D.sanitize ins.Message.Schema ins.Message.Table ++ " (" ++
          ",".intercalate (ins.Message.Columns.map (fun col => col.Name)) ++ ") values " ++ rest,
        m.vars.column_values.flatten⟩]) ∧
    (∀ (pre post : List Column) (col : Column), ins.Message.Columns = pre ++ col :: post →
      ∃ a b, ",".intercalate (ins.Message.Columns.map (fun x => x.Name)) = a ++ col.Name ++ b) ∧
    (∀ col : Column, ins.Message.Columns = [col] →
      ",".intercalate (ins.Message.Columns.map (fun x => x.Name)) = col.Name) ∧
    (run D Machine.init [insertHostileName, mkStmt "C"]).sent =
      [⟨"insert into " ++ D.sanitize "s" "t" ++ " (" ++ "id\") values (0); --" ++ ") values " ++
          " ( $1 ) ", [.int32 1]⟩] := by
  refine ⟨?_, ?_, ?_, ?_⟩
  · have hv : m.vars.schema_name = ins.Message.Schema ∧
        m.vars.table_name = ins.Message.Table ∧
        m.vars.txn_row_column =
          ",".intercalate (ins.Message.Columns.map (fun col => col.Name)) := by
      cases hl : columnsLoop D ins.Message.Columns [] [] with
      | error p =>
        rw [step_insert_panic D m0 ins p hI hl] at hstep
        cases hstep
      | ok res =>
        obtain ⟨row, names⟩ := res
        rw [step_insert_ok D m0 ins row names hI hl] at hstep
        have hn := columnsLoop_names D _ _ _ _ _ hl
        cases hstep
        simp [hn]
    obtain ⟨h1, h2, h3⟩ := hv
    obtain ⟨rest, hrest⟩ := buildWrite_prefix D m.vars
    exact ⟨rest, by rw [step_commit_sent D m c hC, hrest, header, h1, h2, h3]⟩
  · intro pre post col hcols
    rw [hcols, List.map_append, List.map_cons]
    exact intercalate_contains "," _ _ _
  · intro col hcols
    rw [hcols]
    rfl
  · have hl : columnsLoop D insertHostileName.Message.Columns [] [] =
        .ok ([.int32 1], ["id\") values (0); --"]) := by
      simp [insertHostileName, mkInsert, columnsLoop, coerce, assertFloat64, toInt32,
        Except.map]
    have hs : specTuples 1 1 = " ( $1 ) " := by decide
    rw [run_cons_ok D _ _ _ _ (step_insert_ok D _ _ _ _ rfl hl), run_single,
      step_commit_sent D _ _ rfl, buildWrite_eq D _ 1 (by simp [Machine.init, Vars.init])]
    simp only [header, Machine.init, Vars.init, insertHostileName, mkInsert, List.nil_append,
      List.length_singleton, hs, List.flatten_cons, List.flatten_nil, List.append_nil,
      intercalate_singleton]

/-- Instance of C17: the column list after the insert with the column `name`. -/
theorem column_names_verbatim_witness :
    insertName.Action = "I" ∧ (mkStmt "C").Action = "C" ∧
    ∃ rest,
      (step textDeps (step textDeps afterInsertId insertName).machine (mkStmt "C")).sent =
        (step textDeps afterInsertId insertName).machine.sent ++
        [⟨"insert into " ++ textDeps.sanitize insertName.Message.Schema insertName.Message.Table
            ++ " (" ++ ",".intercalate (insertName.Message.Columns.map (fun col => col.Name)) ++
            ") values " ++ rest,
          (step textDeps afterInsertId insertName).machine.vars.column_values.flatten⟩] :=
  ⟨rfl, rfl,
    (column_names_verbatim textDeps afterInsertId (step textDeps afterInsertId insertName).machine
      insertName (mkStmt "C") rfl rfl rfl).1⟩

/-! ## The quoted target -/

end StreamCopy
